import Mathlib

/-!
Shallow embedding of the conllx library (CoNLL-X dependency format
processing): the `Features` key-value view, the sentence/token data
model, the dependency graph built from a sentence, non-projective edge
detection, the pseudo-projective transformation (projectivization by
lifting, deprojectivization by reattachment search), and the sentence
updater.  Rust strings are modelled as lists of characters, `petgraph`
graphs as an edge list in order of addition (so that adjacency, which
petgraph reports most-recently-added first, is the reversed filtered
list), and `BTreeMap` as an association list sorted by key.
-/

/-- Rust `String` / `&str` contents, as a list of characters. -/
abbrev Str := List Char

/-- Rust `str::split(sep)`: splits into the (always nonempty) list of
separator-free chunks; adjacent separators and separators at either end
produce empty chunks, and the empty string yields `[[]]`. -/
def splitSep (sep : Char) : Str → List Str
  | [] => [[]]
  | c :: cs =>
    if c = sep then [] :: splitSep sep cs
    else
      match splitSep sep cs with
      | [] => [[c]]
      | t :: ts => (c :: t) :: ts

/-- Lexicographic order on character lists: the order `BTreeMap<String, _>`
keeps its keys in (Rust compares strings bytewise, which agrees with
code-point order under UTF-8). -/
def strLt : Str → Str → Bool
  | [], [] => false
  | [], _ :: _ => true
  | _ :: _, [] => false
  | a :: as_, b :: bs =>
    if a < b then true
    else if b < a then false
    else strLt as_ bs

/-- `BTreeMap::insert` on a key-sorted association list: replaces the
value when the key is present, otherwise inserts at the ordered
position. -/
def mapInsert : List (Str × Option Str) → Str → Option Str → List (Str × Option Str)
  | [], k, v => [(k, v)]
  | (k', v') :: rest, k, v =>
    if k = k' then (k, v) :: rest
    else if strLt k k' = true then (k, v) :: (k', v') :: rest
    else (k', v') :: mapInsert rest k v

/-- `BTreeMap::get` on the association-list model. -/
def mapLookup (k : Str) (m : List (Str × Option Str)) : Option (Option Str) :=
  (m.find? (fun p => p.1 == k)).map (fun p => p.2)

/-- `Features` (src/features.rs): a raw feature string.  The lazily
cached map is a pure function of the raw string, so the cache cell is
not part of the model. -/
structure Features where
  features : Str
deriving DecidableEq, Repr

/-- `Features::from_string`. -/
def Features.from_string (s : Str) : Features := ⟨s⟩

/-- `impl PartialEq for Features` (src/features.rs lines 110-114):
compares the raw strings. -/
def featuresEq (a b : Features) : Bool := a.features == b.features

/-- `Features::as_map_eager` (src/features.rs lines 72-84): split the raw
string on `|`; for each chunk, `split(':')` and take the first segment as
the key and the second segment, when present, as the value; insert into
the map, overwriting earlier bindings of the same key. -/
def Features.as_map_eager (f : Features) : List (Str × Option Str) :=
  (splitSep '|' f.features).foldl
    (fun m fv =>
      match splitSep ':' fv with
      | [] => m
      | k :: rest => mapInsert m k rest.head?)
    []

/-- Key of a feature chunk as `as_map_eager` computes it. -/
def pieceKey (fv : Str) : Str :=
  match splitSep ':' fv with
  | [] => []
  | k :: _ => k

/-- Value of a feature chunk as `as_map_eager` computes it: the second
`:`-separated segment, when there is one. -/
def pieceVal (fv : Str) : Option Str :=
  match splitSep ':' fv with
  | [] => none
  | _ :: rest => rest.head?

/-- The parsing rule as claim C6 words it: a chunk is split at its FIRST
colon and the value is everything after that colon, to the end of the
chunk. -/
def claimPieceVal (fv : Str) : Option Str :=
  if ':' ∈ fv then some ((fv.dropWhile (fun c => c ≠ ':')).drop 1) else none

/-- The map claim C6 predicts: chunk keys before the first colon, values
everything after it. -/
def claimParse (raw : Str) : List (Str × Option Str) :=
  (splitSep '|' raw).foldl
    (fun m fv => mapInsert m (fv.takeWhile (fun c => c ≠ ':')) (claimPieceVal fv))
    []

/-- The amended parsing rule: the value of a chunk with a colon is the
text strictly between the first colon and the following colon (or the
chunk's end); text after a second colon is dropped. -/
def amendedPieceVal (fv : Str) : Option Str :=
  if ':' ∈ fv then
    some (((fv.dropWhile (fun c => c ≠ ':')).drop 1).takeWhile (fun c => c ≠ ':'))
  else none

/-- The map the amended claim C6 predicts. -/
def amendedParse (raw : Str) : List (Str × Option Str) :=
  (splitSep '|' raw).foldl
    (fun m fv => mapInsert m (fv.takeWhile (fun c => c ≠ ':')) (amendedPieceVal fv))
    []

/-! ### Basic facts about the feature-string parser -/

theorem splitSep_ne_nil (c : Char) (l : Str) : splitSep c l ≠ [] := by
  induction l with
  | nil => simp [splitSep]
  | cons a as ih =>
    by_cases h : a = c
    · simp [splitSep, h]
    · simp only [splitSep, if_neg h]
      cases hs : splitSep c as with
      | nil => exact absurd hs ih
      | cons t ts => simp

theorem splitSep_head? (c : Char) (l : Str) :
    (splitSep c l).head? = some (l.takeWhile (fun x => x ≠ c)) := by
  induction l with
  | nil => simp [splitSep]
  | cons a as ih =>
    by_cases h : a = c
    · simp [splitSep, h, List.takeWhile]
    · simp only [splitSep, if_neg h]
      cases hs : splitSep c as with
      | nil => exact absurd hs (splitSep_ne_nil c as)
      | cons t ts =>
        rw [hs] at ih
        have ht : t = as.takeWhile (fun x => x ≠ c) := Option.some_inj.mp ih
        have hp : (fun x => decide (x ≠ c)) a = true := by simp [h]
        simp only [List.head?, List.takeWhile_cons, hp, if_true, Option.some_inj]
        rw [ht]

theorem pieceKey_eq (fv : Str) : pieceKey fv = fv.takeWhile (fun x => x ≠ ':') := by
  unfold pieceKey
  cases hs : splitSep ':' fv with
  | nil => exact absurd hs (splitSep_ne_nil ':' fv)
  | cons t ts =>
    have h2 := splitSep_head? ':' fv
    rw [hs] at h2
    exact Option.some_inj.mp h2

theorem pieceVal_eq (fv : Str) : pieceVal fv = amendedPieceVal fv := by
  induction fv with
  | nil => simp [pieceVal, amendedPieceVal, splitSep]
  | cons a as ih =>
    by_cases h : a = ':'
    · subst h
      simp [pieceVal, splitSep, amendedPieceVal, splitSep_head?, List.dropWhile_cons]
    · simp only [pieceVal, splitSep, if_neg h]
      cases hs : splitSep ':' as with
      | nil => exact absurd hs (splitSep_ne_nil ':' as)
      | cons t ts =>
        simp only [List.head?]
        rw [pieceVal, hs] at ih
        simp only [List.head?] at ih
        rw [ih]
        unfold amendedPieceVal
        have hmem : (':' ∈ a :: as) ↔ (':' ∈ as) := by
          constructor
          · intro hm
            rcases List.mem_cons.mp hm with h1 | h1
            · exact absurd h1.symm h
            · exact h1
          · exact fun hm => List.mem_cons_of_mem _ hm
        by_cases hin : ':' ∈ as
        · rw [if_pos hin, if_pos (hmem.mpr hin)]
          have : List.dropWhile (fun c => decide (c ≠ ':')) (a :: as)
              = List.dropWhile (fun c => decide (c ≠ ':')) as := by
            simp [List.dropWhile, h]
          rw [this]
        · rw [if_neg hin, if_neg (fun hm => hin (hmem.mp hm))]

theorem as_map_eager_eq_fold (f : Features) :
    f.as_map_eager
      = (splitSep '|' f.features).foldl
          (fun m fv => mapInsert m (pieceKey fv) (pieceVal fv)) [] := by
  unfold Features.as_map_eager
  congr 1
  funext m fv
  cases hs : splitSep ':' fv with
  | nil => exact absurd hs (splitSep_ne_nil ':' fv)
  | cons t ts => simp [pieceKey, pieceVal, hs]

theorem mapLookup_mapInsert_self (m : List (Str × Option Str)) (k : Str) (v : Option Str) :
    mapLookup k (mapInsert m k v) = some v := by
  induction m with
  | nil => simp [mapInsert, mapLookup, List.find?]
  | cons p rest ih =>
    obtain ⟨k', v'⟩ := p
    by_cases h : k = k'
    · simp [mapInsert, if_pos h, mapLookup, List.find?]
    · by_cases hlt : strLt k k' = true
      · simp [mapInsert, if_neg h, if_pos hlt, mapLookup, List.find?]
      · have hne : (k' == k) = false := by
          simp only [beq_eq_false_iff_ne, ne_eq]
          exact fun hk => h hk.symm
        simp only [mapInsert, if_neg h, if_neg hlt]
        simp only [mapLookup, List.find?, hne] at ih ⊢
        exact ih

theorem mapLookup_mapInsert_ne (m : List (Str × Option Str)) (k k₀ : Str) (v : Option Str)
    (h : k ≠ k₀) : mapLookup k (mapInsert m k₀ v) = mapLookup k m := by
  have hne : (k₀ == k) = false := by
    simp only [beq_eq_false_iff_ne, ne_eq]
    exact fun hk => h hk.symm
  induction m with
  | nil => simp [mapInsert, mapLookup, List.find?, hne]
  | cons p rest ih =>
    obtain ⟨k', v'⟩ := p
    by_cases hk : k₀ = k'
    · subst hk
      simp [mapInsert, mapLookup, List.find?, hne]
    · by_cases hlt : strLt k₀ k' = true
      · simp [mapInsert, if_neg hk, if_pos hlt, mapLookup, List.find?, hne]
      · simp only [mapInsert, if_neg hk, if_neg hlt]
        simp only [mapLookup, List.find?] at ih ⊢
        cases hck : (k' == k) with
        | true => simp
        | false =>
          simp only [hck]
          exact ih

theorem find?_append' {α : Type} (p : α → Bool) (l₁ l₂ : List α) :
    (l₁ ++ l₂).find? p = ((l₁.find? p).map some).getD (l₂.find? p) := by
  induction l₁ with
  | nil => simp
  | cons a as ih =>
    by_cases h : p a = true
    · simp [List.find?, h]
    · simp only [List.cons_append, List.find?, Bool.not_eq_true] at *
      rw [h]
      simpa using ih

theorem lookup_foldl_pieces (k : Str) (ps : List Str) (m₀ : List (Str × Option Str)) :
    mapLookup k (ps.foldl (fun m fv => mapInsert m (pieceKey fv) (pieceVal fv)) m₀)
      = match ps.reverse.find? (fun fv => pieceKey fv == k) with
        | some fv => some (pieceVal fv)
        | none => mapLookup k m₀ := by
  induction ps generalizing m₀ with
  | nil => simp
  | cons p ps ih =>
    simp only [List.foldl_cons, List.reverse_cons]
    rw [ih]
    rw [find?_append']
    cases hf : ps.reverse.find? (fun fv => pieceKey fv == k) with
    | some fv => simp
    | none =>
      simp only [Option.map_none', Option.getD_none, List.find?]
      cases hp : (pieceKey p == k) with
      | true =>
        have : pieceKey p = k := by exact beq_iff_eq.mp hp
        subst this
        simp [mapLookup_mapInsert_self]
      | false =>
        have : k ≠ pieceKey p := by
          intro hk
          rw [hk] at hp
          simp at hp
        simp [mapLookup_mapInsert_ne _ _ _ _ this]

/-! ### Claims C5, C6, C9: the `Features` view -/

/-- C5 counterexample: `"a|b:c"` and `"b:c|a"` parse to the same
key-value map, yet the `PartialEq` implementation reports the two
`Features` values as different, because it compares the raw strings. -/
theorem c5_counterexample :
    Features.as_map_eager (Features.from_string "a|b:c".data)
        = Features.as_map_eager (Features.from_string "b:c|a".data)
      ∧ featuresEq (Features.from_string "a|b:c".data)
          (Features.from_string "b:c|a".data) = false := by
  exact ⟨by decide, by decide⟩

/-- C5 (amended): equality of `Features` values compares the raw feature
strings, so it is sensitive to the order of the pieces: two `Features`
values are equal exactly when their raw strings are equal; in particular
`Features("a|b:c") ≠ Features("b:c|a")` even though both parse to the
same map, and `Features("a|b:c") ≠ Features("b|a:c")`. -/
theorem c5_features_equality_is_raw_string_equality :
    (∀ a b : Features, featuresEq a b = true ↔ a = b)
      ∧ featuresEq (Features.from_string "a|b:c".data)
          (Features.from_string "b:c|a".data) = false
      ∧ featuresEq (Features.from_string "a|b:c".data)
          (Features.from_string "b|a:c".data) = false := by
  refine ⟨fun a b => ?_, by decide, by decide⟩
  cases a
  cases b
  simp [featuresEq]

/-- C6 counterexample: on the piece `"a:1:2"` the map built by
`as_map_eager` binds `a` to `"1"` (the second `:`-separated segment
only), not to `"1:2"` as the claim's parsing rule predicts. -/
theorem c6_counterexample :
    Features.as_map_eager (Features.from_string "a:1:2".data)
        = [("a".data, some "1".data)]
      ∧ Features.as_map_eager (Features.from_string "a:1:2".data)
          ≠ claimParse "a:1:2".data := by
  exact ⟨by decide, by decide⟩

/-- C6 (amended): the map view equals the mapping obtained by splitting
the raw string on `|` and splitting each piece at its colons: the key is
the text before the first colon, the value is the text strictly between
the first colon and the second one (or the piece's end); a piece without
a colon maps to an absent value, and text after a second colon is
silently dropped. -/
theorem c6_as_map_value_between_first_and_second_colon (f : Features) :
    f.as_map_eager = amendedParse f.features := by
  rw [as_map_eager_eq_fold]
  unfold amendedParse
  congr 1
  funext m fv
  rw [pieceKey_eq, pieceVal_eq]

/-- C9: a key bound by several pieces of the raw string ends up bound to
the value of its last occurrence: looking a key up in the map view gives
the value of the last piece (in string order) carrying that key, earlier
occurrences being overwritten. -/
theorem c9_last_occurrence_wins (f : Features) (k : Str) :
    mapLookup k f.as_map_eager
      = ((splitSep '|' f.features).reverse.find?
            (fun fv => pieceKey fv == k)).map pieceVal := by
  rw [as_map_eager_eq_fold]
  rw [lookup_foldl_pieces k (splitSep '|' f.features) []]
  cases (splitSep '|' f.features).reverse.find? (fun fv => pieceKey fv == k) with
  | some fv => simp
  | none => simp [mapLookup]

/-! ### Tokens, sentences, and the dependency graph -/

/-- A CoNLL-X token (src/token.rs).  Absent fields are `none`; the
`features` field keeps only the raw string, as the map view is derived
(see `Features`). -/
structure Token where
  form : Option Str := none
  lemma' : Option Str := none
  cpos : Option Str := none
  pos : Option Str := none
  features : Option Str := none
  head : Option Nat := none
  head_rel : Option Str := none
  p_head : Option Nat := none
  p_head_rel : Option Str := none
deriving DecidableEq, Repr

/-- A sentence is the ordered list of its tokens (1-based positions are
list index + 1). -/
abbrev Sentence := List Token

/-- The graph construction error of src/proj.rs (`GraphError` variant
`IncompleteGraph`). -/
inductive GraphError where
  | IncompleteGraph (value : String)
deriving DecidableEq, Repr

/-- One directed labeled edge of the dependency graph. -/
structure DEdge where
  src : Nat
  tgt : Nat
  lab : Str
deriving DecidableEq, Repr

/-- A `petgraph` directed graph with unit node weights and string edge
weights, as used in src/proj.rs.  `edges` is kept in order of addition:
petgraph's adjacency lists report edges most-recently-added first, so
the adjacency of node `n` is the reversed filtered list.  Edge removal
erases the list entry and edge addition appends, which preserves exactly
that recency order. -/
structure DGraph where
  nodeCount : Nat
  edges : List DEdge
deriving DecidableEq, Repr

/-- `Graph::from_edges`: nodes `0 ..= max endpoint` are created
implicitly. -/
def fromEdges (es : List DEdge) : DGraph :=
  ⟨es.foldl (fun n e => max n (max e.src e.tgt + 1)) 0, es⟩

/-- Outgoing edges of `n` in adjacency order (most recently added
first), together with their edge indices in `edges`. -/
def outEdgesIdx (g : DGraph) (n : Nat) : List (Nat × DEdge) :=
  (g.edges.enum.filter (fun p => p.2.src == n)).reverse

/-- `neighbors(n)` of the petgraph graph: targets of outgoing edges,
most recently added first. -/
def outNeighbors (g : DGraph) (n : Nat) : List Nat :=
  ((g.edges.filter (fun e => e.src == n)).reverse).map (fun e => e.tgt)

/-- Incoming edges of `n`, in list (addition) order. -/
def inc (g : DGraph) (n : Nat) : List DEdge :=
  g.edges.filter (fun e => e.tgt == n)

/-- `first_edge(n, Incoming)` resolved to the edge value: the most
recently added incoming edge of `n`. -/
def firstIncoming (g : DGraph) (n : Nat) : Option DEdge :=
  (g.edges.reverse).find? (fun e => e.tgt == n)

/-- `first_edge(n, Incoming)`: the index (into `edges`) of the most
recently added incoming edge of `n`. -/
def firstIncomingIdx (g : DGraph) (n : Nat) : Option Nat :=
  ((g.edges.enum.reverse).find? (fun p => p.2.tgt == n)).map (fun p => p.1)

/-- The unique incoming edge of `n`, when it is unique (the parent edge
in a tree). -/
def parentEdge? (g : DGraph) (n : Nat) : Option DEdge :=
  match inc g n with
  | [e] => some e
  | _ => none

/-- Well-formedness: every edge endpoint is an existing node.  petgraph
guarantees this for every graph (`add_edge` requires both endpoints to
exist), so it is an invariant of the Rust side, not a check. -/
def DGraph.WF (g : DGraph) : Prop :=
  ∀ e ∈ g.edges, e.src < g.nodeCount ∧ e.tgt < g.nodeCount

instance (g : DGraph) : Decidable g.WF := by
  unfold DGraph.WF
  infer_instance

/-- One step along a directed edge. -/
def stepRel (g : DGraph) (a b : Nat) : Prop :=
  ∃ e ∈ g.edges, e.src = a ∧ e.tgt = b

/-- Directed reachability, the specification-level notion. -/
def Reach (g : DGraph) (a b : Nat) : Prop :=
  Relation.ReflTransGen (stepRel g) a b

/-- `sentence_to_graph`'s edge collection loop (src/proj.rs lines
237-263), with `idx` the 0-based position of the first token of the
remaining list: a token with a head yields the edge `head → idx + 1`,
labelled by the token's head relation; a head without a head relation is
an `IncompleteGraph` error (the first one encountered is returned). -/
def stgEdges : Sentence → Nat → Except GraphError (List DEdge)
  | [], _ => .ok []
  | t :: ts, idx =>
    match t.head with
    | none => stgEdges ts (idx + 1)
    | some h =>
      match t.head_rel with
      | none =>
        .error (.IncompleteGraph
          s!"edge from {h} to {idx + 1} does not have a label")
      | some rel => (stgEdges ts (idx + 1)).map (fun es => ⟨h, idx + 1, rel⟩ :: es)

/-- `sentence_to_graph` (src/proj.rs lines 237-263). -/
def sentenceToGraph (sent : Sentence) : Except GraphError DGraph :=
  (stgEdges sent 0).map fromEdges

/-- Replace the element at an index, leaving other positions (and
out-of-range indices) unchanged. -/
def modifyIdx (f : α → α) : Nat → List α → List α
  | _, [] => []
  | 0, x :: xs => f x :: xs
  | n + 1, x :: xs => x :: modifyIdx f n xs

/-- `update_sentence` (src/proj.rs lines 302-312): clone the sentence,
then for every edge `h → i` of the graph overwrite token `i`'s head with
`h` and its head relation with the edge label. -/
def updateSentence (g : DGraph) (sent : Sentence) : Sentence :=
  g.edges.foldl
    (fun s e =>
      modifyIdx (fun t => { t with head := some e.src, head_rel := some e.lab })
        (e.tgt - 1) s)
    sent

/-! ### Breadth-first search (petgraph `Bfs` as used in src/proj.rs) -/

/-- The body of the neighbor loop of `Bfs::next`: push every
not-yet-discovered successor, marking it discovered at push time.
Returns the updated discovered list and the pushed nodes in push
order. -/
def pushNew (disc : List Nat) : List Nat → List Nat × List Nat
  | [] => (disc, [])
  | s :: rest =>
    if s ∈ disc then pushNew disc rest
    else
      let r := pushNew (s :: disc) rest
      (r.1, s :: r.2)

/-- The queue loop of petgraph's `Bfs`: pop the front node, push its
undiscovered successors, emit the popped node.  `fuel` bounds the number
of iterations; since every queued node was freshly discovered at push
time, `nodeCount` iterations always suffice. -/
def bfsAux (g : DGraph) : Nat → List Nat → List Nat → List Nat
  | 0, _, _ => []
  | _ + 1, [], _ => []
  | fuel + 1, n :: queue, disc =>
    let r := pushNew disc (outNeighbors g n)
    n :: bfsAux g fuel (queue ++ r.2) r.1

/-- All nodes visited by `Bfs::new(graph, start)`, in visit order. -/
def bfsList (g : DGraph) (start : Nat) : List Nat :=
  bfsAux g g.nodeCount [start] [start]

theorem mem_outNeighbors (g : DGraph) (n x : Nat) :
    x ∈ outNeighbors g n ↔ ∃ e ∈ g.edges, e.src = n ∧ e.tgt = x := by
  unfold outNeighbors
  simp only [List.mem_map, List.mem_reverse, List.mem_filter, beq_iff_eq]
  constructor
  · rintro ⟨e, ⟨he, hsrc⟩, htgt⟩
    exact ⟨e, he, hsrc, htgt⟩
  · rintro ⟨e, he, hsrc, htgt⟩
    exact ⟨e, ⟨he, hsrc⟩, htgt⟩

theorem mem_outNeighbors_step (g : DGraph) (n x : Nat) :
    x ∈ outNeighbors g n ↔ stepRel g n x := by
  rw [mem_outNeighbors]
  constructor
  · rintro ⟨e, he, h1, h2⟩
    exact ⟨e, he, h1, h2⟩
  · rintro ⟨e, he, h1, h2⟩
    exact ⟨e, he, h1, h2⟩

theorem pushNew_mem_fst (disc l : List Nat) (x : Nat) :
    x ∈ (pushNew disc l).1 ↔ x ∈ disc ∨ x ∈ (pushNew disc l).2 := by
  induction l generalizing disc with
  | nil => simp [pushNew]
  | cons s rest ih =>
    by_cases h : s ∈ disc
    · simp only [pushNew, if_pos h]
      exact ih disc
    · simp only [pushNew, if_neg h]
      rw [ih (s :: disc)]
      simp only [List.mem_cons]
      tauto

theorem pushNew_snd_subset (disc l : List Nat) (x : Nat) :
    x ∈ (pushNew disc l).2 → x ∈ l := by
  induction l generalizing disc with
  | nil => simp [pushNew]
  | cons s rest ih =>
    by_cases h : s ∈ disc
    · simp only [pushNew, if_pos h]
      intro hx
      exact List.mem_cons_of_mem _ (ih disc hx)
    · simp only [pushNew, if_neg h, List.mem_cons]
      rintro (rfl | hx)
      · exact Or.inl rfl
      · exact Or.inr (ih (s :: disc) hx)

theorem pushNew_covers (disc l : List Nat) (x : Nat) (hx : x ∈ l) :
    x ∈ (pushNew disc l).1 := by
  induction l generalizing disc with
  | nil => cases hx
  | cons s rest ih =>
    by_cases h : s ∈ disc
    · simp only [pushNew, if_pos h]
      rcases List.mem_cons.mp hx with rfl | hx'
      · rw [pushNew_mem_fst]
        exact Or.inl h
      · exact ih disc hx'
    · simp only [pushNew, if_neg h]
      rcases List.mem_cons.mp hx with rfl | hx'
      · rw [pushNew_mem_fst]
        exact Or.inl (List.mem_cons_self _ _)
      · exact ih (s :: disc) hx'

theorem pushNew_nodup (disc l : List Nat) (hd : disc.Nodup) :
    (pushNew disc l).1.Nodup := by
  induction l generalizing disc with
  | nil => exact hd
  | cons s rest ih =>
    by_cases h : s ∈ disc
    · simp only [pushNew, if_pos h]
      exact ih disc hd
    · simp only [pushNew, if_neg h]
      exact ih (s :: disc) (List.nodup_cons.mpr ⟨h, hd⟩)

theorem pushNew_length (disc l : List Nat) :
    (pushNew disc l).1.length = disc.length + (pushNew disc l).2.length := by
  induction l generalizing disc with
  | nil => simp [pushNew]
  | cons s rest ih =>
    by_cases h : s ∈ disc
    · simp only [pushNew, if_pos h]
      exact ih disc
    · simp only [pushNew, if_neg h]
      have := ih (s :: disc)
      simp only [List.length_cons] at this ⊢
      omega

theorem bfsAux_sound (g : DGraph) (start : Nat) :
    ∀ (fuel : Nat) (queue disc : List Nat),
      (∀ q ∈ queue, Reach g start q) →
      ∀ x ∈ bfsAux g fuel queue disc, Reach g start x := by
  intro fuel
  induction fuel with
  | zero => intro queue disc _ x hx; cases hx
  | succ fuel ih =>
    intro queue disc hq x hx
    cases queue with
    | nil => cases hx
    | cons n rest =>
      simp only [bfsAux, List.mem_cons] at hx
      rcases hx with rfl | hx
      · exact hq x (List.mem_cons_self _ _)
      · refine ih _ _ ?_ x hx
        intro q hqm
        rcases List.mem_append.mp hqm with h1 | h2
        · exact hq q (List.mem_cons_of_mem _ h1)
        · have hn : Reach g start n := hq n (List.mem_cons_self _ _)
          have hnb : q ∈ outNeighbors g n :=
            pushNew_snd_subset disc (outNeighbors g n) q h2
          exact Relation.ReflTransGen.tail hn ((mem_outNeighbors_step g n q).mp hnb)

theorem bfsAux_master (g : DGraph) (hWF : g.WF) :
    ∀ (fuel : Nat) (queue disc done : List Nat),
      queue.length + (g.nodeCount - disc.length) ≤ fuel →
      (∀ x, x ∈ disc ↔ x ∈ done ∨ x ∈ queue) →
      disc.Nodup →
      (∀ x ∈ disc, x < g.nodeCount) →
      (∀ d ∈ done, ∀ s ∈ outNeighbors g d, s ∈ disc) →
      (∀ q ∈ queue, q ∈ bfsAux g fuel queue disc) ∧
      (∀ x ∈ bfsAux g fuel queue disc, ∀ s ∈ outNeighbors g x,
          s ∈ done ∨ s ∈ bfsAux g fuel queue disc) := by
  intro fuel
  induction fuel with
  | zero =>
    intro queue disc done hfuel _ _ _ _
    have : queue = [] := List.length_eq_zero.mp (by omega)
    subst this
    exact ⟨fun q hq => absurd hq (List.not_mem_nil q), fun x hx => absurd hx (List.not_mem_nil x)⟩
  | succ fuel ih =>
    intro queue disc done hfuel hdq hnodup hbound hclosed
    cases queue with
    | nil =>
      exact ⟨fun q hq => absurd hq (List.not_mem_nil q),
             fun x hx => absurd hx (List.not_mem_nil x)⟩
    | cons n rest =>
      have hdisc' : (pushNew disc (outNeighbors g n)).1.Nodup :=
        pushNew_nodup disc _ hnodup
      have hbound' : ∀ x ∈ (pushNew disc (outNeighbors g n)).1, x < g.nodeCount := by
        intro x hx
        rcases (pushNew_mem_fst disc _ x).mp hx with h1 | h2
        · exact hbound x h1
        · have := pushNew_snd_subset disc _ x h2
          rcases (mem_outNeighbors g n x).mp this with ⟨e, he, _, htgt⟩
          exact htgt ▸ (hWF e he).2
      have hlen' : (pushNew disc (outNeighbors g n)).1.length ≤ g.nodeCount := by
        have h1 := List.toFinset_card_of_nodup hdisc'
        have h2 : (pushNew disc (outNeighbors g n)).1.toFinset ⊆ Finset.range g.nodeCount := by
          intro x hx
          rw [List.mem_toFinset] at hx
          exact Finset.mem_range.mpr (hbound' x hx)
        have := Finset.card_le_card h2
        rw [h1, Finset.card_range] at this
        exact this
      have hplen := pushNew_length disc (outNeighbors g n)
      have hfuel' : (rest ++ (pushNew disc (outNeighbors g n)).2).length
          + (g.nodeCount - (pushNew disc (outNeighbors g n)).1.length) ≤ fuel := by
        rw [List.length_append]
        simp only [List.length_cons] at hfuel
        omega
      have hdq' : ∀ x, x ∈ (pushNew disc (outNeighbors g n)).1 ↔
          x ∈ n :: done ∨ x ∈ rest ++ (pushNew disc (outNeighbors g n)).2 := by
        intro x
        rw [pushNew_mem_fst, hdq x]
        simp only [List.mem_cons, List.mem_append]
        tauto
      have hclosed' : ∀ d ∈ n :: done, ∀ s ∈ outNeighbors g d,
          s ∈ (pushNew disc (outNeighbors g n)).1 := by
        intro d hd s hs
        rcases List.mem_cons.mp hd with rfl | hd'
        · exact pushNew_covers disc _ s hs
        · rw [pushNew_mem_fst]
          exact Or.inl (hclosed d hd' s hs)
      obtain ⟨iha, ihb⟩ := ih (rest ++ (pushNew disc (outNeighbors g n)).2)
        (pushNew disc (outNeighbors g n)).1 (n :: done)
        hfuel' hdq' hdisc' hbound' hclosed'
      constructor
      · intro q hq
        rcases List.mem_cons.mp hq with rfl | hq'
        · simp [bfsAux]
        · simp only [bfsAux, List.mem_cons]
          exact Or.inr (iha q (List.mem_append.mpr (Or.inl hq')))
      · intro x hx s hs
        simp only [bfsAux, List.mem_cons] at hx ⊢
        rcases hx with rfl | hx'
        · have hsd : s ∈ (pushNew disc (outNeighbors g x)).1 :=
            pushNew_covers disc _ s hs
          rcases (hdq' s).mp hsd with hcone | hq
          · rcases List.mem_cons.mp hcone with rfl | hdone
            · exact Or.inr (Or.inl rfl)
            · exact Or.inl hdone
          · exact Or.inr (Or.inr (iha s hq))
        · rcases ihb x hx' s hs with hcone | hout
          · rcases List.mem_cons.mp hcone with rfl | hdone
            · exact Or.inr (Or.inl rfl)
            · exact Or.inl hdone
          · exact Or.inr (Or.inr hout)

/-- Correctness of the `Bfs` walk: on a well-formed graph it visits
exactly the nodes reachable from the start node. -/
theorem bfsList_mem_iff (g : DGraph) (hWF : g.WF) (start : Nat)
    (hs : start < g.nodeCount) (x : Nat) :
    x ∈ bfsList g start ↔ Reach g start x := by
  constructor
  · intro hx
    refine bfsAux_sound g start g.nodeCount [start] [start] ?_ x hx
    intro q hq
    rcases List.mem_cons.mp hq with rfl | h
    · exact Relation.ReflTransGen.refl
    · cases h
  · intro hreach
    obtain ⟨ha, hb⟩ := bfsAux_master g hWF g.nodeCount [start] [start] []
      (by simp only [List.length_cons, List.length_nil]; omega)
      (by intro y; simp)
      (List.nodup_cons.mpr ⟨List.not_mem_nil _, List.nodup_nil⟩)
      (by
        intro y hy
        have hy' : y = start := by
          rcases List.mem_cons.mp hy with h | h
          · exact h
          · cases h
        rw [hy']
        exact hs)
      (by intro d hd; cases hd)
    induction hreach with
    | refl => exact ha start (List.mem_cons_self _ _)
    | tail _ hstep ihr =>
      rename_i b c _
      have hnb : c ∈ outNeighbors g b := (mem_outNeighbors_step g b c).mpr hstep
      rcases hb b ihr c hnb with hdone | hout
      · cases hdone
      · exact hout

/-! ### Non-projective edge detection (src/proj.rs lines 266-299) -/

/-- The projectivity test of the inner loop: edge `i → k` is flagged
when some `j` with `min i k ≤ j < max i k` is not visited by the BFS
from `i` (the two endpoints themselves are always visited, so only the
strictly intervening positions can trigger this). -/
def edgeNonProj (g : DGraph) (i : Nat) (e : DEdge) : Bool :=
  (List.range' (min i e.tgt) (max i e.tgt - min i e.tgt)).any
    (fun j => decide (j ∉ bfsList g i))

/-- The enumeration pass of `non_projective_edges`: nodes in increasing
order, and for each node its outgoing edges in adjacency order, keeping
the edge indices of the flagged edges. -/
def npEnum (g : DGraph) : List Nat :=
  (List.range g.nodeCount).flatMap (fun i =>
    ((outEdgesIdx g i).filter (fun p => edgeNonProj g i p.2)).map (fun p => p.1))

/-- Span length of the edge stored at index `idx`. -/
def spanOf (g : DGraph) (idx : Nat) : Nat :=
  match g.edges[idx]? with
  | some e => max e.src e.tgt - min e.src e.tgt
  | none => 0

/-- Stable insertion into a sorted list: the new element goes before the
first element it compares `le` to, hence after every earlier element
with an equal key. -/
def insertBy (le : α → α → Bool) (x : α) : List α → List α
  | [] => [x]
  | y :: ys => if le x y then x :: y :: ys else y :: insertBy le x ys

/-- Stable insertion sort; `Vec::sort_by` is a stable sort by the same
comparator, and the stable sort of a list is unique, so this models it
exactly. -/
def isortBy (le : α → α → Bool) : List α → List α
  | [] => []
  | x :: xs => insertBy le x (isortBy le xs)

/-- `non_projective_edges` (src/proj.rs lines 266-299): the enumerated
non-projective edge indices, stably sorted by span length. -/
def nonProjectiveEdges (g : DGraph) : List Nat :=
  isortBy (fun a b => spanOf g a ≤ spanOf g b) (npEnum g)

theorem mem_insertBy (le : α → α → Bool) (x z : α) (l : List α) :
    z ∈ insertBy le x l ↔ z = x ∨ z ∈ l := by
  induction l with
  | nil => simp [insertBy]
  | cons y ys ih =>
    by_cases h : le x y = true
    · simp [insertBy, h]
    · simp only [insertBy, if_neg h, List.mem_cons, ih]
      tauto

theorem mem_isortBy (le : α → α → Bool) (z : α) (l : List α) :
    z ∈ isortBy le l ↔ z ∈ l := by
  induction l with
  | nil => simp [isortBy]
  | cons x xs ih =>
    simp only [isortBy, mem_insertBy, List.mem_cons, ih]

theorem pairwise_insertBy (key : α → Nat) (x : α) (l : List α)
    (hl : l.Pairwise (fun a b => key a ≤ key b)) :
    (insertBy (fun a b => key a ≤ key b) x l).Pairwise (fun a b => key a ≤ key b) := by
  induction l with
  | nil => simp [insertBy]
  | cons y ys ih =>
    rcases List.pairwise_cons.mp hl with ⟨hy, hys⟩
    by_cases h : (fun a b : α => (key a ≤ key b : Bool)) x y = true
    · simp only [insertBy, if_pos h]
      refine List.pairwise_cons.mpr ⟨?_, hl⟩
      intro z hz
      have hxy : key x ≤ key y := by simpa using h
      rcases List.mem_cons.mp hz with rfl | hz'
      · exact hxy
      · exact le_trans hxy (hy z hz')
    · simp only [insertBy, if_neg h]
      refine List.pairwise_cons.mpr ⟨?_, ih hys⟩
      intro z hz
      have hyx : key y ≤ key x := by
        have : ¬ (key x ≤ key y) := by simpa using h
        omega
      rcases (mem_insertBy _ x z ys).mp hz with rfl | hz'
      · exact hyx
      · exact hy z hz'

theorem pairwise_isortBy (key : α → Nat) (l : List α) :
    (isortBy (fun a b => key a ≤ key b) l).Pairwise (fun a b => key a ≤ key b) := by
  induction l with
  | nil => simp [isortBy]
  | cons x xs ih => exact pairwise_insertBy key x _ ih

theorem filter_insertBy_eq_key (key : α → Nat) (x : α) (l : List α) (s : Nat)
    (hx : key x = s) :
    (insertBy (fun a b => key a ≤ key b) x l).filter (fun a => key a == s)
      = x :: l.filter (fun a => key a == s) := by
  induction l with
  | nil => simp [insertBy, List.filter, hx]
  | cons y ys ih =>
    by_cases h : (fun a b : α => (key a ≤ key b : Bool)) x y = true
    · simp only [insertBy, if_pos h]
      rw [List.filter_cons, if_pos (by simp [hx])]
    · simp only [insertBy, if_neg h]
      have hyx : key y ≠ s := by
        have : ¬ (key x ≤ key y) := by simpa using h
        omega
      rw [List.filter_cons, List.filter_cons, if_neg (by simp [hyx]), if_neg (by simp [hyx])]
      exact ih

theorem filter_insertBy_ne_key (key : α → Nat) (x : α) (l : List α) (s : Nat)
    (hx : key x ≠ s) :
    (insertBy (fun a b => key a ≤ key b) x l).filter (fun a => key a == s)
      = l.filter (fun a => key a == s) := by
  induction l with
  | nil =>
    simp only [insertBy]
    rw [List.filter_cons, if_neg (by simp [hx])]
  | cons y ys ih =>
    by_cases h : (fun a b : α => (key a ≤ key b : Bool)) x y = true
    · simp only [insertBy, if_pos h]
      rw [List.filter_cons, if_neg (by simp [hx])]
    · simp only [insertBy, if_neg h]
      rw [List.filter_cons, List.filter_cons]
      by_cases hy : key y = s
      · rw [if_pos (by simp [hy]), if_pos (by simp [hy]), ih]
      · rw [if_neg (by simp [hy]), if_neg (by simp [hy]), ih]

theorem filter_isortBy (key : α → Nat) (l : List α) (s : Nat) :
    (isortBy (fun a b => key a ≤ key b) l).filter (fun a => key a == s)
      = l.filter (fun a => key a == s) := by
  induction l with
  | nil => simp [isortBy]
  | cons x xs ih =>
    by_cases hx : key x = s
    · rw [isortBy, filter_insertBy_eq_key key x _ s hx, ih,
          List.filter_cons, if_pos (by simp [hx])]
    · rw [isortBy, filter_insertBy_ne_key key x _ s hx, ih,
          List.filter_cons, if_neg (by simp [hx])]

theorem mem_enum_iff {α : Type} (l : List α) (i : Nat) (x : α) :
    (i, x) ∈ l.enum ↔ l[i]? = some x := by
  constructor
  · intro h
    obtain ⟨hlen, hx⟩ := List.mem_enum h
    exact List.getElem?_eq_some.mpr ⟨hlen, hx.symm⟩
  · intro h
    obtain ⟨hlen, hx⟩ := List.getElem?_eq_some.mp h
    have hlen' : i < l.enum.length := by rw [List.enum_length]; exact hlen
    have : l.enum[i] = (i, l[i]) := List.getElem_enum l i hlen'
    have hmem := List.getElem_mem hlen'
    rw [this, hx] at hmem
    exact hmem

theorem mem_outEdgesIdx (g : DGraph) (i idx : Nat) (e : DEdge) :
    (idx, e) ∈ outEdgesIdx g i ↔ g.edges[idx]? = some e ∧ e.src = i := by
  unfold outEdgesIdx
  rw [List.mem_reverse, List.mem_filter, mem_enum_iff]
  simp only [beq_iff_eq]

theorem getElem?_mem_edges {g : DGraph} {idx : Nat} {e : DEdge}
    (h : g.edges[idx]? = some e) : e ∈ g.edges := by
  obtain ⟨hlen, hx⟩ := List.getElem?_eq_some.mp h
  have := List.getElem_mem hlen
  rw [hx] at this
  exact this

theorem reach_tgt {g : DGraph} {e : DEdge} (he : e ∈ g.edges) :
    Reach g e.src e.tgt :=
  Relation.ReflTransGen.single ⟨e, he, rfl, rfl⟩

theorem edgeNonProj_iff (g : DGraph) (hWF : g.WF) (e : DEdge) (he : e ∈ g.edges) :
    edgeNonProj g e.src e = true ↔
      ∃ j, min e.src e.tgt < j ∧ j < max e.src e.tgt ∧ ¬ Reach g e.src j := by
  have hsrc : e.src < g.nodeCount := (hWF e he).1
  have hminmax : min e.src e.tgt ≤ max e.src e.tgt := min_le_max
  unfold edgeNonProj
  rw [List.any_eq_true]
  constructor
  · rintro ⟨j, hjr, hj⟩
    obtain ⟨hj1, hj2⟩ := List.mem_range'_1.mp hjr
    have hj2' : j < max e.src e.tgt := by omega
    have hnm : j ∉ bfsList g e.src := by simpa using hj
    have hnr : ¬ Reach g e.src j := fun hr =>
      hnm ((bfsList_mem_iff g hWF e.src hsrc j).mpr hr)
    have hne_src : j ≠ e.src := by
      intro hje
      exact hnr (hje ▸ Relation.ReflTransGen.refl)
    have hne_tgt : j ≠ e.tgt := by
      intro hje
      exact hnr (hje ▸ reach_tgt he)
    refine ⟨j, ?_, hj2', hnr⟩
    rcases min_cases e.src e.tgt with ⟨hmin, _⟩ | ⟨hmin, _⟩ <;> omega
  · rintro ⟨j, hj1, hj2, hnr⟩
    refine ⟨j, List.mem_range'_1.mpr ⟨le_of_lt hj1, by omega⟩, ?_⟩
    simp only [decide_eq_true_eq]
    intro hmem
    exact hnr ((bfsList_mem_iff g hWF e.src hsrc j).mp hmem)

theorem npEnum_mem (g : DGraph) (hWF : g.WF) (idx : Nat) :
    idx ∈ npEnum g ↔ ∃ e, g.edges[idx]? = some e ∧ edgeNonProj g e.src e = true := by
  unfold npEnum
  rw [List.mem_flatMap]
  constructor
  · rintro ⟨i, hi, hmem⟩
    obtain ⟨p, hp, hfst⟩ := List.mem_map.mp hmem
    obtain ⟨hpe, hnp⟩ := List.mem_filter.mp hp
    obtain ⟨he, hsrc⟩ := (mem_outEdgesIdx g i p.1 p.2).mp hpe
    subst hfst
    exact ⟨p.2, he, by rw [hsrc]; exact hnp⟩
  · rintro ⟨e, he, hnp⟩
    have hmem := getElem?_mem_edges he
    refine ⟨e.src, List.mem_range.mpr (hWF e hmem).1, ?_⟩
    refine List.mem_map.mpr ⟨(idx, e), ?_, rfl⟩
    exact List.mem_filter.mpr ⟨(mem_outEdgesIdx g e.src idx e).mpr ⟨he, rfl⟩, hnp⟩

theorem npe_mem (g : DGraph) (hWF : g.WF) (idx : Nat) :
    idx ∈ nonProjectiveEdges g ↔
      ∃ e, g.edges[idx]? = some e ∧
        ∃ j, min e.src e.tgt < j ∧ j < max e.src e.tgt ∧ ¬ Reach g e.src j := by
  unfold nonProjectiveEdges
  rw [mem_isortBy, npEnum_mem g hWF]
  constructor
  · rintro ⟨e, he, hnp⟩
    exact ⟨e, he, (edgeNonProj_iff g hWF e (getElem?_mem_edges he)).mp hnp⟩
  · rintro ⟨e, he, hj⟩
    exact ⟨e, he, (edgeNonProj_iff g hWF e (getElem?_mem_edges he)).mpr hj⟩

theorem npe_sorted (g : DGraph) :
    (nonProjectiveEdges g).Pairwise (fun a b => spanOf g a ≤ spanOf g b) :=
  pairwise_isortBy (spanOf g) (npEnum g)

theorem npe_stable (g : DGraph) (s : Nat) :
    (nonProjectiveEdges g).filter (fun i => spanOf g i == s)
      = (npEnum g).filter (fun i => spanOf g i == s) :=
  filter_isortBy (spanOf g) (npEnum g) s

/-! ### Claim C3: the non-projective edge detector -/

/-- C3: for every (well-formed) graph, `non_projective_edges` returns
exactly the indices of the edges `i → k` such that some position `j`
strictly between `i` and `k` is not reachable from `i`; the returned
list is non-decreasing in span length `|target − source|`; and ties are
broken by enumeration order: for each span value, the subsequence of
edges of that span equals their subsequence in the enumeration pass
(nodes in increasing order, adjacency order within a node).  -/
theorem c3_non_projective_edges (g : DGraph) (hWF : g.WF) :
    (∀ idx, idx ∈ nonProjectiveEdges g ↔
        ∃ e, g.edges[idx]? = some e ∧
          ∃ j, min e.src e.tgt < j ∧ j < max e.src e.tgt ∧ ¬ Reach g e.src j)
      ∧ (nonProjectiveEdges g).Pairwise (fun a b => spanOf g a ≤ spanOf g b)
      ∧ (∀ s, (nonProjectiveEdges g).filter (fun i => spanOf g i == s)
            = (npEnum g).filter (fun i => spanOf g i == s)) :=
  ⟨npe_mem g hWF, npe_sorted g, npe_stable g⟩

/-! ### Lifting and the projectivization loop (src/proj.rs lines 122-201) -/

/-- `HeadProjectivizer::lift` (src/proj.rs lines 122-149): reattach the
edge at index `i` to the parent of its source.  The parent edge is
`first_edge(source, Incoming)`; the lifted edge is removed and the new
edge `parent → target` appended.  On the first lift of `target` the new
label is `rel|parent_rel` and `target` is recorded as lifted; on a
subsequent lift the label is just `rel`.  `none` models the `expect`
panics (edge index invalid, or source without an incoming edge). -/
def lift (g : DGraph) (lifted : List Nat) (i : Nat) : Option (DGraph × List Nat) :=
  match g.edges[i]? with
  | none => none
  | some e =>
    match firstIncoming g e.src with
    | none => none
    | some pe =>
      if e.tgt ∈ lifted then
        some (⟨g.nodeCount, g.edges.eraseIdx i ++ [⟨pe.src, e.tgt, e.lab⟩]⟩, lifted)
      else
        some (⟨g.nodeCount, g.edges.eraseIdx i ++ [⟨pe.src, e.tgt, e.lab ++ '|' :: pe.lab⟩]⟩,
              e.tgt :: lifted)

/-- The fixed-point loop of `projectivize` (src/proj.rs lines 189-196):
while non-projective edges remain, lift the first (shortest) one.
`fuel` bounds the number of iterations; `none` models both fuel
exhaustion and a panic inside `lift`. -/
def projLoop : Nat → DGraph → List Nat → Option (DGraph × List Nat)
  | 0, g, lifted =>
    match nonProjectiveEdges g with
    | [] => some (g, lifted)
    | _ :: _ => none
  | fuel + 1, g, lifted =>
    match nonProjectiveEdges g with
    | [] => some (g, lifted)
    | idx :: _ => (lift g lifted idx).bind (fun r => projLoop fuel r.1 r.2)

/-- `HeadProjectivizer::projectivize` (src/proj.rs lines 183-201). -/
def projectivize (fuel : Nat) (sent : Sentence) : Option (Except GraphError Sentence) :=
  match sentenceToGraph sent with
  | .error err => some (.error err)
  | .ok g => (projLoop fuel g []).map (fun r => .ok (updateSentence r.1 sent))

/-! ### Deprojectivization (src/proj.rs lines 30-116 and 204-235) -/

/-- Label prefix before the first `|` (`edge_val[..sep_idx]`). -/
def stripEnc (lab : Str) : Str := lab.takeWhile (fun c => c ≠ '|')

/-- Label suffix after the first `|` (`edge_val[sep_idx + 1..]`). -/
def encSuffix (lab : Str) : Str := (lab.dropWhile (fun c => c ≠ '|')).drop 1

/-- `HeadProjectivizer::prepare_deproj` (src/proj.rs lines 154-179):
strip every encoded label to its prefix, recording for the edge's
dependent the suffix as its preferred head label. -/
def prepareDeproj (g : DGraph) : DGraph × List (Nat × Str) :=
  (⟨g.nodeCount,
    g.edges.map (fun e => if '|' ∈ e.lab then ⟨e.src, e.tgt, stripEnc e.lab⟩ else e)⟩,
   g.edges.filterMap
     (fun e => if '|' ∈ e.lab then some (e.tgt, encSuffix e.lab) else none))

/-- `HashMap::get` on the preferred-head-label map: the last insertion
for a key wins. -/
def hlLookup (hl : List (Nat × Str)) (n : Nat) : Option Str :=
  (hl.reverse.find? (fun p => p.1 == n)).map (fun p => p.2)

/-- `BfsWithDepth::next` iterated (src/graph.rs): two queues, swapped
(incrementing the depth) when the current level runs out; the popped
node is emitted with its depth and its not-yet-discovered neighbors
that pass the node filter are pushed to the next level. -/
def bfsDepthAux (g : DGraph) (flt : Nat → Bool) :
    Nat → List Nat → List Nat → Nat → List Nat → List (Nat × Nat)
  | 0, _, _, _, _ => []
  | fuel + 1, cur, nxt, depth, disc =>
    let s := if cur.isEmpty && !nxt.isEmpty then (nxt, ([] : List Nat), depth + 1)
             else (cur, nxt, depth)
    match s.1 with
    | [] => []
    | n :: cur' =>
      let r := pushNew disc ((outNeighbors g n).filter flt)
      (n, s.2.2) :: bfsDepthAux g flt fuel cur' (s.2.1 ++ r.2) s.2.2 r.1

/-- The full `(node, depth)` walk of `BfsWithDepth::new(graph, start)`
over the node-filtered graph. -/
def bfsWithDepthList (g : DGraph) (flt : Nat → Bool) (start : Nat) : List (Nat × Nat) :=
  bfsDepthAux g flt g.nodeCount [start] [] 0 [start]

/-- `Itertools::group_by` on the depth component, with fuel for
structural recursion: groups of consecutive equal depths, keeping the
nodes.  Since `dropWhile` never lengthens a list, fuel equal to the
list's length always suffices. -/
def groupByDepthF : Nat → List (Nat × Nat) → List (List Nat)
  | 0, _ => []
  | _ + 1, [] => []
  | fuel + 1, (n, d) :: rest =>
    (n :: (rest.takeWhile (fun p => p.2 == d)).map (fun p => p.1))
      :: groupByDepthF fuel (rest.dropWhile (fun p => p.2 == d))

/-- `Itertools::group_by` on the depth component. -/
def groupByDepth (l : List (Nat × Nat)) : List (List Nat) :=
  groupByDepthF l.length l

/-- `|index(n) − index(cur)|` as computed with `max`/`min`. -/
def distTo (cur n : Nat) : Nat := max n cur - min n cur

/-- `Iterator::min_by_key` on the distance to the current head: the
first element attaining the minimum. -/
def minByDist (cur : Nat) (cands : List Nat) : Option Nat :=
  cands.foldl
    (fun acc n =>
      match acc with
      | none => some n
      | some m => if distTo cur n < distTo cur m then some n else acc)
    none

/-- `HeadProjectivizer::search_attachment_point` (src/proj.rs lines
66-116): walk the graph WITHOUT the lifted node breadth-first from the
root (node 0), skip the root itself, group by depth, keep the nodes
whose incoming edge carries the preferred relation, and return, from
the first depth with any candidate, the candidate closest to the
current head. -/
def searchAttachmentPoint (g : DGraph) (curHead liftedNode : Nat) (prefRel : Str) :
    Option Nat :=
  let walk := (bfsWithDepthList g (fun n => n != liftedNode) 0).drop 1
  (groupByDepth walk).findSome? (fun level =>
    minByDist curHead (level.filter (fun n =>
      match firstIncoming g n with
      | none => false
      | some e2 => e2.lab == prefRel)))

/-- Result of one `deprojectivize_next` scan. -/
inductive StepRes where
  | panic : StepRes
  | noProgress : StepRes
  | progress (idx : Nat) (g : DGraph) : StepRes
deriving DecidableEq, Repr

/-- `HeadProjectivizer::deprojectivize_next` (src/proj.rs lines 33-63):
scan the still-lifted nodes in order; for the first one with an
attachment point, replace its incoming edge by one from the new head
(same label) and report its position in the scan list.  `panic` models
the `expect` panics. -/
def deprojNextAux (g : DGraph) (hl : List (Nat × Str)) : List Nat → Nat → StepRes
  | [], _ => .noProgress
  | node :: rest, k =>
    match hlLookup hl node with
    | none => .panic
    | some prefRel =>
      match firstIncomingIdx g node with
      | none => .panic
      | some hedge =>
        match g.edges[hedge]? with
        | none => .panic
        | some he =>
          match searchAttachmentPoint g he.src node prefRel with
          | some newHead =>
            .progress k ⟨g.nodeCount, g.edges.eraseIdx hedge ++ [⟨newHead, node, he.lab⟩]⟩
          | none => deprojNextAux g hl rest (k + 1)

/-- The reattachment loop of `deprojectivize` (src/proj.rs lines
226-231): repeat `deprojectivize_next`, removing a reattached node from
the list, until no progress is made.  Each progress round removes one
element, so `length + 1` fuel always suffices. -/
def deprojLoopF : Nat → DGraph → List (Nat × Str) → List Nat → Option DGraph
  | 0, _, _, _ => none
  | fuel + 1, g, hl, ls =>
    match deprojNextAux g hl ls 0 with
    | .panic => none
    | .noProgress => some g
    | .progress idx g' => deprojLoopF fuel g' hl (ls.eraseIdx idx)

/-- `HeadProjectivizer::deprojectivize` (src/proj.rs lines 204-235):
build the graph, strip encoded labels; when none were found return the
input unchanged, otherwise collect the lifted nodes in BFS order from
the root and run the reattachment loop, writing the result back into
the sentence. -/
def deprojectivize (sent : Sentence) : Option (Except GraphError Sentence) :=
  match sentenceToGraph sent with
  | .error err => some (.error err)
  | .ok g =>
    let p := prepareDeproj g
    if p.2.isEmpty then some (.ok sent)
    else
      let liftedSorted := (bfsList p.1 0).filter (fun n => (hlLookup p.2 n).isSome)
      (deprojLoopF (liftedSorted.length + 1) p.1 p.2 liftedSorted).map
        (fun gF => .ok (updateSentence gF sent))

deriving instance DecidableEq for Except

/-! ### Claim C7: graph construction from a sentence -/

theorem stgEdges_tgt_lb (sent : Sentence) (idx : Nat) (es : List DEdge)
    (h : stgEdges sent idx = .ok es) : ∀ e ∈ es, idx + 1 ≤ e.tgt := by
  induction sent generalizing idx es with
  | nil =>
    simp only [stgEdges] at h
    cases h
    intro e he
    cases he
  | cons t ts ih =>
    simp only [stgEdges] at h
    cases ht : t.head with
    | none =>
      rw [ht] at h
      intro e he
      have := ih (idx + 1) es h e he
      omega
    | some hh =>
      rw [ht] at h
      cases hr : t.head_rel with
      | none => rw [hr] at h; cases h
      | some rel =>
        rw [hr] at h
        cases hrec : stgEdges ts (idx + 1) with
        | error err => rw [hrec] at h; cases h
        | ok es' =>
          rw [hrec] at h
          simp only [Except.map] at h
          cases h
          intro e he
          rcases List.mem_cons.mp he with rfl | he'
          · simp
          · have := ih (idx + 1) es' hrec e he'
            omega

theorem stgEdges_err_iff (sent : Sentence) (idx : Nat) :
    (∃ err, stgEdges sent idx = .error err) ↔
      ∃ t ∈ sent, t.head.isSome = true ∧ t.head_rel = none := by
  induction sent generalizing idx with
  | nil => simp [stgEdges]
  | cons t ts ih =>
    simp only [stgEdges]
    cases ht : t.head with
    | none =>
      rw [ih (idx + 1)]
      constructor
      · rintro ⟨t', ht', hp⟩
        exact ⟨t', List.mem_cons_of_mem _ ht', hp⟩
      · rintro ⟨t', ht', hp⟩
        rcases List.mem_cons.mp ht' with rfl | hm
        · rw [ht] at hp
          simp at hp
        · exact ⟨t', hm, hp⟩
    | some hh =>
      cases hr : t.head_rel with
      | none =>
        constructor
        · intro _
          exact ⟨t, List.mem_cons_self _ _, by simp [ht, hr]⟩
        · intro _
          exact ⟨_, rfl⟩
      | some rel =>
        constructor
        · rintro ⟨err, herr⟩
          cases hrec : stgEdges ts (idx + 1) with
          | error err' =>
            have := (ih (idx + 1)).mp ⟨err', hrec⟩
            obtain ⟨t', ht', hp⟩ := this
            exact ⟨t', List.mem_cons_of_mem _ ht', hp⟩
          | ok es' =>
            rw [hrec] at herr
            simp [Except.map] at herr
        · rintro ⟨t', ht', hp⟩
          rcases List.mem_cons.mp ht' with rfl | hm
          · rw [ht, hr] at hp
            simp at hp
          · obtain ⟨err, herr⟩ := (ih (idx + 1)).mpr ⟨t', hm, hp⟩
            rw [herr]
            exact ⟨err, rfl⟩

theorem stgEdges_ok_filter (sent : Sentence) (idx : Nat) (es : List DEdge)
    (h : stgEdges sent idx = .ok es) (j : Nat) :
    es.filter (fun e => e.tgt == idx + j + 1)
      = (match sent[j]? with
         | some t =>
           (match t.head, t.head_rel with
            | some hh, some rel => [⟨hh, idx + j + 1, rel⟩]
            | _, _ => [])
         | none => []) := by
  induction sent generalizing idx es j with
  | nil =>
    simp only [stgEdges] at h
    cases h
    simp
  | cons t ts ih =>
    simp only [stgEdges] at h
    cases ht : t.head with
    | none =>
      rw [ht] at h
      cases j with
      | zero =>
        simp only [List.getElem?_cons_zero, ht]
        rw [List.filter_eq_nil_iff]
        intro e he
        have := stgEdges_tgt_lb ts (idx + 1) es h e he
        simp only [beq_iff_eq]
        omega
      | succ j' =>
        simp only [List.getElem?_cons_succ]
        have := ih (idx + 1) es h j'
        rw [show idx + (j' + 1) + 1 = (idx + 1) + j' + 1 by omega]
        exact this
    | some hh =>
      rw [ht] at h
      cases hr : t.head_rel with
      | none => rw [hr] at h; cases h
      | some rel =>
        rw [hr] at h
        cases hrec : stgEdges ts (idx + 1) with
        | error err => rw [hrec] at h; cases h
        | ok es' =>
          rw [hrec] at h
          simp only [Except.map] at h
          cases h
          cases j with
          | zero =>
            simp only [List.getElem?_cons_zero, ht, hr]
            rw [List.filter_cons, if_pos (by simp)]
            have hnil : es'.filter (fun e => e.tgt == idx + 0 + 1) = [] := by
              rw [List.filter_eq_nil_iff]
              intro e he
              have := stgEdges_tgt_lb ts (idx + 1) es' hrec e he
              simp only [beq_iff_eq]
              omega
            rw [hnil]
          | succ j' =>
            simp only [List.getElem?_cons_succ]
            rw [List.filter_cons, if_neg (by simp)]
            have := ih (idx + 1) es' hrec j'
            rw [show idx + (j' + 1) + 1 = (idx + 1) + j' + 1 by omega]
            exact this

/-- C7: `sentence_to_graph` returns an `IncompleteGraph` error exactly
when some token has a head but no head label; otherwise the graph's
edges with target `i` (1-indexed) are exactly one edge `h → i` carrying
the token's head label when token `i` has head `h`, and none when token
`i` has no head; no edge targets the root. -/
theorem c7_sentence_to_graph (sent : Sentence) :
    ((∃ err, sentenceToGraph sent = .error err) ↔
        ∃ t ∈ sent, t.head.isSome = true ∧ t.head_rel = none)
      ∧ (∀ g, sentenceToGraph sent = .ok g →
          (∀ j, g.edges.filter (fun e => e.tgt == j + 1)
              = (match sent[j]? with
                 | some t =>
                   (match t.head, t.head_rel with
                    | some hh, some rel => [⟨hh, j + 1, rel⟩]
                    | _, _ => [])
                 | none => []))
            ∧ g.edges.filter (fun e => e.tgt == 0) = []) := by
  constructor
  · rw [← stgEdges_err_iff sent 0]
    unfold sentenceToGraph
    constructor
    · rintro ⟨err, herr⟩
      cases hrec : stgEdges sent 0 with
      | error err' => exact ⟨err', rfl⟩
      | ok es => rw [hrec] at herr; simp [Except.map] at herr
    · rintro ⟨err, herr⟩
      rw [herr]
      exact ⟨err, rfl⟩
  · intro g hg
    unfold sentenceToGraph at hg
    cases hrec : stgEdges sent 0 with
    | error err => rw [hrec] at hg; simp [Except.map] at hg
    | ok es =>
      rw [hrec] at hg
      simp only [Except.map] at hg
      cases hg
      constructor
      · intro j
        have := stgEdges_ok_filter sent 0 es hrec j
        simpa using this
      · rw [List.filter_eq_nil_iff]
        intro e he
        have := stgEdges_tgt_lb sent 0 es hrec e he
        simp only [beq_iff_eq]
        omega

/-! ### Claims C8 and C10: the sentence updater -/

/-- The fields `update_sentence` never touches. -/
def tokenFrame (t : Token) :
    Option Str × Option Str × Option Str × Option Str × Option Str × Option Nat × Option Str :=
  (t.form, t.lemma', t.cpos, t.pos, t.features, t.p_head, t.p_head_rel)

theorem map_modifyIdx_of_frame (f : Token → Token)
    (hf : ∀ t, tokenFrame (f t) = tokenFrame t) :
    ∀ (i : Nat) (s : Sentence), (modifyIdx f i s).map tokenFrame = s.map tokenFrame := by
  intro i
  induction i with
  | zero =>
    intro s
    cases s with
    | nil => rfl
    | cons t ts => simp [modifyIdx, hf t]
  | succ n ih =>
    intro s
    cases s with
    | nil => rfl
    | cons t ts => simp [modifyIdx, ih ts]

theorem updateSentence_frame (g : DGraph) (sent : Sentence) :
    (updateSentence g sent).map tokenFrame = sent.map tokenFrame := by
  unfold updateSentence
  generalize g.edges = es
  induction es generalizing sent with
  | nil => rfl
  | cons e es ih =>
    simp only [List.foldl_cons]
    rw [ih (modifyIdx
      (fun t => { t with head := some e.src, head_rel := some e.lab }) (e.tgt - 1) sent)]
    exact map_modifyIdx_of_frame
      (fun t => { t with head := some e.src, head_rel := some e.lab })
      (fun t => rfl) (e.tgt - 1) sent

theorem modifyIdx_of_fixed (f : Token → Token) (i : Nat) (s : Sentence)
    (h : ∀ t, s[i]? = some t → f t = t) : modifyIdx f i s = s := by
  induction i generalizing s with
  | zero =>
    cases s with
    | nil => rfl
    | cons t ts =>
      simp only [modifyIdx]
      rw [h t (by simp)]
  | succ n ih =>
    cases s with
    | nil => rfl
    | cons t ts =>
      simp only [modifyIdx]
      rw [ih ts (fun t' ht' => h t' (by simpa using ht'))]

/-- When every edge of the graph records exactly the head and label the
sentence already carries, `update_sentence` is the identity. -/
theorem foldl_update_id (es : List DEdge) (sent : Sentence)
    (h : ∀ e ∈ es, ∃ t, sent[e.tgt - 1]? = some t
        ∧ t.head = some e.src ∧ t.head_rel = some e.lab) :
    es.foldl
        (fun s e =>
          modifyIdx (fun t => { t with head := some e.src, head_rel := some e.lab })
            (e.tgt - 1) s)
        sent = sent := by
  induction es with
  | nil => rfl
  | cons e es ih =>
    simp only [List.foldl_cons]
    have hstep : modifyIdx
        (fun t => { t with head := some e.src, head_rel := some e.lab })
        (e.tgt - 1) sent = sent := by
      apply modifyIdx_of_fixed
      intro t ht
      obtain ⟨t', ht', hh, hr⟩ := h e (List.mem_cons_self _ _)
      rw [ht] at ht'
      cases ht'
      cases t
      simp only [Token.mk.injEq] at hh hr ⊢
      simp_all
    rw [hstep]
    exact ih (fun e' he' => h e' (List.mem_cons_of_mem _ he'))

/-- When every edge of the graph records exactly the head and label the
sentence already carries, `update_sentence` is the identity. -/
theorem updateSentence_id (g : DGraph) (sent : Sentence)
    (h : ∀ e ∈ g.edges, ∃ t, sent[e.tgt - 1]? = some t
        ∧ t.head = some e.src ∧ t.head_rel = some e.lab) :
    updateSentence g sent = sent := by
  unfold updateSentence
  exact foldl_update_id g.edges sent h

theorem stg_edges_match (sent : Sentence) (g : DGraph)
    (hg : sentenceToGraph sent = .ok g) :
    ∀ e ∈ g.edges, ∃ t, sent[e.tgt - 1]? = some t
      ∧ t.head = some e.src ∧ t.head_rel = some e.lab := by
  unfold sentenceToGraph at hg
  cases hrec : stgEdges sent 0 with
  | error err => rw [hrec] at hg; simp [Except.map] at hg
  | ok es =>
    rw [hrec] at hg
    simp only [Except.map] at hg
    cases hg
    intro e he
    have hlb := stgEdges_tgt_lb sent 0 es hrec e he
    have hchar := stgEdges_ok_filter sent 0 es hrec (e.tgt - 1)
    have hmem : e ∈ es.filter (fun x => x.tgt == 0 + (e.tgt - 1) + 1) := by
      refine List.mem_filter.mpr ⟨he, ?_⟩
      simp only [beq_iff_eq]
      omega
    rw [hchar] at hmem
    cases hj : sent[e.tgt - 1]? with
    | none =>
      simp only [hj] at hmem
      cases hmem
    | some t =>
      simp only [hj] at hmem
      cases ht : t.head with
      | none =>
        simp only [ht] at hmem
        cases hmem
      | some hh =>
        simp only [ht] at hmem
        cases hr : t.head_rel with
        | none =>
          simp only [hr] at hmem
          cases hmem
        | some rel =>
          simp only [hr, List.mem_singleton] at hmem
          have hsrc : e.src = hh := by rw [hmem]
          have hlab : e.lab = rel := by rw [hmem]
          exact ⟨t, rfl, by rw [ht, hsrc], by rw [hr, hlab]⟩

/-- C8: projectivization is the identity on a sentence whose dependency
graph has no non-projective edges: the loop exits at once and the
write-back re-writes each token's own head and label. -/
theorem c8_projectivize_identity (fuel : Nat) (sent : Sentence) (g : DGraph)
    (hg : sentenceToGraph sent = .ok g) (hnp : nonProjectiveEdges g = []) :
    projectivize fuel sent = some (.ok sent) := by
  unfold projectivize
  simp only [hg]
  have hloop : projLoop fuel g [] = some (g, []) := by
    cases fuel with
    | zero => simp [projLoop, hnp]
    | succ n => simp [projLoop, hnp]
  rw [hloop]
  simp only [Option.map]
  rw [updateSentence_id g sent (stg_edges_match sent g hg)]

/-- The per-token statement of frame preservation. -/
def framesMatch (inp out : Sentence) : Prop :=
  out.length = inp.length ∧
  ∀ (i : Nat) (t t' : Token), inp[i]? = some t → out[i]? = some t' →
    t'.form = t.form ∧ t'.lemma' = t.lemma' ∧ t'.cpos = t.cpos ∧ t'.pos = t.pos
      ∧ t'.features = t.features ∧ t'.p_head = t.p_head ∧ t'.p_head_rel = t.p_head_rel

theorem framesMatch_of_map_eq (inp out : Sentence)
    (h : out.map tokenFrame = inp.map tokenFrame) : framesMatch inp out := by
  constructor
  · have := congrArg List.length h
    simpa using this
  · intro i t t' ht ht'
    have hi := congrArg (fun l => l[i]?) h
    simp only [List.getElem?_map, ht, ht'] at hi
    simp only [Option.map_some'] at hi
    have := Option.some_inj.mp hi
    unfold tokenFrame at this
    simp only [Prod.mk.injEq] at this
    tauto

/-- C10: on every accepted sentence, both transformations keep every
token field other than `head` and `head_rel` unchanged (`form`,
`lemma`, `cpos`, `pos`, `features`, `p_head`, `p_head_rel`), token by
token. -/
theorem c10_frame_preservation (sent : Sentence) :
    (∀ fuel out, projectivize fuel sent = some (.ok out) → framesMatch sent out)
      ∧ (∀ out, deprojectivize sent = some (.ok out) → framesMatch sent out) := by
  constructor
  · intro fuel out hp
    unfold projectivize at hp
    cases hg : sentenceToGraph sent with
    | error err =>
      simp only [hg] at hp
      cases hp
    | ok g =>
      simp only [hg] at hp
      cases hloop : projLoop fuel g [] with
      | none => rw [hloop] at hp; simp at hp
      | some r =>
        rw [hloop] at hp
        simp only [Option.map_some', Option.some_inj, Except.ok.injEq] at hp
        subst hp
        exact framesMatch_of_map_eq sent _ (updateSentence_frame r.1 sent)
  · intro out hp
    unfold deprojectivize at hp
    cases hg : sentenceToGraph sent with
    | error err =>
      simp only [hg] at hp
      cases hp
    | ok g =>
      simp only [hg] at hp
      by_cases hemp : (prepareDeproj g).2.isEmpty
      · rw [if_pos hemp] at hp
        simp only [Option.some_inj, Except.ok.injEq] at hp
        subst hp
        exact framesMatch_of_map_eq sent sent rfl
      · rw [if_neg hemp] at hp
        cases hloop : deprojLoopF
            (((bfsList (prepareDeproj g).1 0).filter
                (fun n => (hlLookup (prepareDeproj g).2 n).isSome)).length + 1)
            (prepareDeproj g).1 (prepareDeproj g).2
            ((bfsList (prepareDeproj g).1 0).filter
                (fun n => (hlLookup (prepareDeproj g).2 n).isSome)) with
        | none => rw [hloop] at hp; simp at hp
        | some gF =>
          rw [hloop] at hp
          simp only [Option.map_some', Option.some_inj, Except.ok.injEq] at hp
          subst hp
          exact framesMatch_of_map_eq sent _ (updateSentence_frame gF sent)

/-! ### Claim C2: the lift operation -/

theorem find?_of_filter_singleton {α : Type} (p : α → Bool) (l : List α) (x : α)
    (h : l.filter p = [x]) : l.find? p = some x := by
  induction l with
  | nil => simp at h
  | cons a as ih =>
    by_cases hp : p a = true
    · rw [List.filter_cons, if_pos hp] at h
      injection h with h1 h2
      rw [List.find?_cons_of_pos _ hp, h1]
    · rw [List.filter_cons, if_neg hp] at h
      rw [List.find?_cons_of_neg _ (by simpa using hp)]
      exact ih h

theorem firstIncoming_of_unique (g : DGraph) (n : Nat) (pe : DEdge)
    (h : inc g n = [pe]) : firstIncoming g n = some pe := by
  unfold firstIncoming
  apply find?_of_filter_singleton
  unfold inc at h
  rw [List.filter_reverse, h, List.reverse_singleton]

/-- C2: lifting the edge at index `i`, going `p → c` with label `ℓ`,
where `q → p` (label `ℓ_p`) is `p`'s unique incoming edge: when `c` has
not been lifted before, `p → c` is replaced by `q → c` labelled
`ℓ|ℓ_p` and `c` is added to the lifted set; when `c` has been lifted
before, the new edge `q → c` keeps just `ℓ` and the set is unchanged;
in both cases `c` is in the resulting lifted set. -/
theorem c2_lift (g : DGraph) (lifted : List Nat) (i : Nat) (e pe : DEdge)
    (he : g.edges[i]? = some e)
    (hpe : inc g e.src = [pe]) :
    ∃ g' lifted', lift g lifted i = some (g', lifted')
      ∧ g'.nodeCount = g.nodeCount
      ∧ (e.tgt ∉ lifted →
          g'.edges = g.edges.eraseIdx i ++ [⟨pe.src, e.tgt, e.lab ++ '|' :: pe.lab⟩]
            ∧ lifted' = e.tgt :: lifted)
      ∧ (e.tgt ∈ lifted →
          g'.edges = g.edges.eraseIdx i ++ [⟨pe.src, e.tgt, e.lab⟩]
            ∧ lifted' = lifted)
      ∧ e.tgt ∈ lifted' := by
  have hfi := firstIncoming_of_unique g e.src pe hpe
  simp only [lift, he, hfi]
  by_cases hmem : e.tgt ∈ lifted
  · exact ⟨⟨g.nodeCount, g.edges.eraseIdx i ++ [⟨pe.src, e.tgt, e.lab⟩]⟩, lifted,
      by rw [if_pos hmem], rfl, fun hc => absurd hmem hc, fun _ => ⟨rfl, rfl⟩, hmem⟩
  · exact ⟨⟨g.nodeCount, g.edges.eraseIdx i ++ [⟨pe.src, e.tgt, e.lab ++ '|' :: pe.lab⟩]⟩,
      e.tgt :: lifted,
      by rw [if_neg hmem], rfl, fun _ => ⟨rfl, rfl⟩, fun hc => absurd hc hmem,
      List.mem_cons_self _ _⟩

/-! ### Claim C4: trees, depths, and termination of projectivization -/

/-- Source of the unique incoming edge (the parent in a tree); `0` when
there is none, a value never used under the tree hypothesis. -/
def parentOf (g : DGraph) (v : Nat) : Nat :=
  match parentEdge? g v with
  | some e => e.src
  | none => 0

/-- `d` certifies that the head relation of `g` is a tree rooted at
node 0: the graph is well-formed, the root has no incoming edge, every
other node has exactly one, and `d` is a depth function (each node one
deeper than its parent) — which rules out cycles. -/
def IsTreeDepth (g : DGraph) (d : Nat → Nat) : Prop :=
  g.WF ∧ inc g 0 = [] ∧ d 0 = 0 ∧
  ∀ v, v < g.nodeCount → 0 < v →
    (parentEdge? g v).isSome = true ∧ d v = d (parentOf g v) + 1

instance (g : DGraph) (d : Nat → Nat) : Decidable (IsTreeDepth g d) := by
  unfold IsTreeDepth
  infer_instance

/-- Total depth of all nodes: the termination measure of the
projectivization loop. -/
def sumDepth (g : DGraph) (d : Nat → Nat) : Nat :=
  ∑ v ∈ Finset.range g.nodeCount, d v

/-- The chain of ancestors of `v` (`v` first), following parent edges,
with enough fuel. -/
def ancChain (g : DGraph) : Nat → Nat → List Nat
  | 0, v => [v]
  | fuel + 1, v =>
    v :: (match parentEdge? g v with
          | some e2 => ancChain g fuel e2.src
          | none => [])

/-- The depth function after lifting the dependent `c`: `c` and all its
descendants rise one level. -/
def liftDepth (g : DGraph) (d : Nat → Nat) (c : Nat) : Nat → Nat :=
  fun v => if c ∈ ancChain g (d v) v then d v - 1 else d v

theorem mem_inc (g : DGraph) (v : Nat) (e : DEdge) :
    e ∈ inc g v ↔ e ∈ g.edges ∧ e.tgt = v := by
  simp [inc, List.mem_filter]

theorem parentEdge?_some_iff (g : DGraph) (v : Nat) (pe : DEdge) :
    parentEdge? g v = some pe ↔ inc g v = [pe] := by
  unfold parentEdge?
  cases hinc : inc g v with
  | nil => simp
  | cons a as =>
    cases as with
    | nil => simp
    | cons b bs => simp

theorem parentEdge?_congr (g g2 : DGraph) (v : Nat) (h : inc g2 v = inc g v) :
    parentEdge? g2 v = parentEdge? g v := by
  unfold parentEdge?
  rw [h]

theorem parentOf_eq (g : DGraph) (v : Nat) (pe : DEdge)
    (h : parentEdge? g v = some pe) : parentOf g v = pe.src := by
  unfold parentOf
  rw [h]

theorem tree_tgt {g : DGraph} {d : Nat → Nat} (h : IsTreeDepth g d)
    {e : DEdge} (he : e ∈ g.edges) :
    e.tgt ≠ 0 ∧ e.tgt < g.nodeCount ∧ inc g e.tgt = [e] ∧ d e.tgt = d e.src + 1 := by
  obtain ⟨hWF, hroot, hd0, htree⟩ := h
  have hmem : e ∈ inc g e.tgt := (mem_inc g e.tgt e).mpr ⟨he, rfl⟩
  have htgt0 : e.tgt ≠ 0 := by
    intro hc
    rw [hc, hroot] at hmem
    cases hmem
  have htgtN : e.tgt < g.nodeCount := (hWF e he).2
  obtain ⟨hsome, hdep⟩ := htree e.tgt htgtN (Nat.pos_of_ne_zero htgt0)
  obtain ⟨pe, hpe⟩ := Option.isSome_iff_exists.mp hsome
  have hinc : inc g e.tgt = [pe] := (parentEdge?_some_iff g e.tgt pe).mp hpe
  rw [hinc] at hmem
  rcases List.mem_cons.mp hmem with rfl | hnil
  · refine ⟨htgt0, htgtN, hinc, ?_⟩
    rw [hdep, parentOf_eq g e.tgt e hpe]
  · cases hnil

theorem tree_parent {g : DGraph} {d : Nat → Nat} (h : IsTreeDepth g d)
    {v : Nat} (hv : v < g.nodeCount) (h0 : 0 < v) :
    ∃ pe, parentEdge? g v = some pe ∧ pe ∈ g.edges ∧ pe.tgt = v
      ∧ d v = d pe.src + 1 ∧ pe.src < g.nodeCount := by
  obtain ⟨hWF, hroot, hd0, htree⟩ := h
  obtain ⟨hsome, hdep⟩ := htree v hv h0
  obtain ⟨pe, hpe⟩ := Option.isSome_iff_exists.mp hsome
  have hinc : inc g v = [pe] := (parentEdge?_some_iff g v pe).mp hpe
  have hmem : pe ∈ inc g v := by rw [hinc]; exact List.mem_cons_self _ _
  obtain ⟨hpeE, hpeT⟩ := (mem_inc g v pe).mp hmem
  refine ⟨pe, hpe, hpeE, hpeT, ?_, (hWF pe hpeE).1⟩
  rw [hdep, parentOf_eq g v pe hpe]

theorem self_mem_ancChain (g : DGraph) (fuel v : Nat) : v ∈ ancChain g fuel v := by
  cases fuel with
  | zero => simp [ancChain]
  | succ n => simp [ancChain]

theorem ancChain_depth_le {g : DGraph} {d : Nat → Nat} (h : IsTreeDepth g d) :
    ∀ (fuel v : Nat), v < g.nodeCount → ∀ x ∈ ancChain g fuel v, d x ≤ d v := by
  intro fuel
  induction fuel with
  | zero =>
    intro v _ x hx
    simp only [ancChain, List.mem_singleton] at hx
    rw [hx]
  | succ n ih =>
    intro v hv x hx
    simp only [ancChain, List.mem_cons] at hx
    rcases hx with rfl | hx'
    · exact le_refl _
    · cases hpe : parentEdge? g v with
      | none =>
        simp only [hpe] at hx'
        cases hx'
      | some pe =>
        simp only [hpe] at hx'
        have hv0 : 0 < v := by
          rcases Nat.eq_zero_or_pos v with rfl | hp
          · have hinc0 := (parentEdge?_some_iff g 0 pe).mp hpe
            rw [h.2.1] at hinc0
            cases hinc0
          · exact hp
        obtain ⟨pe', hpe', hpeE, _, hdep, hsrcN⟩ := tree_parent h hv hv0
        rw [hpe] at hpe'
        cases hpe'
        have := ih pe.src hsrcN x hx'
        omega

theorem ancChain_cons {g : DGraph} {d : Nat → Nat} (h : IsTreeDepth g d)
    {v : Nat} (hv : v < g.nodeCount) (h0 : 0 < v) {pe : DEdge}
    (hpe : parentEdge? g v = some pe) :
    ancChain g (d v) v = v :: ancChain g (d pe.src) pe.src := by
  obtain ⟨pe', hpe', _, _, hdep, _⟩ := tree_parent h hv h0
  rw [hpe] at hpe'
  cases hpe'
  rw [hdep]
  simp [ancChain, hpe]

theorem tree_reach_root {g : DGraph} {d : Nat → Nat} (h : IsTreeDepth g d) :
    ∀ v, v < g.nodeCount → Reach g 0 v := by
  have key : ∀ (n v : Nat), d v = n → v < g.nodeCount → Reach g 0 v := by
    intro n
    induction n using Nat.strong_induction_on with
    | _ n ih =>
      intro v hdv hv
      by_cases h0 : v = 0
      · subst h0
        exact Relation.ReflTransGen.refl
      · obtain ⟨pe, hpe, hpeE, hpeT, hdep, hsrcN⟩ :=
          tree_parent h hv (Nat.pos_of_ne_zero h0)
        have hlt : d pe.src < n := by omega
        have hr : Reach g 0 pe.src := ih (d pe.src) hlt pe.src rfl hsrcN
        exact Relation.ReflTransGen.tail hr ⟨pe, hpeE, rfl, hpeT⟩
  exact fun v hv => key (d v) v rfl hv

theorem np_src_ne_zero {g : DGraph} {d : Nat → Nat} (h : IsTreeDepth g d)
    {idx : Nat} {e : DEdge} (hmem : idx ∈ nonProjectiveEdges g)
    (he : g.edges[idx]? = some e) : e.src ≠ 0 := by
  obtain ⟨e', he', j, hj1, hj2, hnr⟩ := (npe_mem g h.1 idx).mp hmem
  rw [he] at he'
  cases he'
  intro hc
  rw [hc] at hj1 hj2 hnr
  have htgtN : e.tgt < g.nodeCount := (h.1 e (getElem?_mem_edges he)).2
  have hjN : j < g.nodeCount := by
    rcases max_cases 0 e.tgt with ⟨hm, _⟩ | ⟨hm, _⟩ <;> omega
  exact hnr (tree_reach_root h j hjN)

theorem append_eq_singleton_mid {α : Type} (a b : List α) (x y : α)
    (h : a ++ x :: b = [y]) : a = [] ∧ x = y ∧ b = [] := by
  cases a with
  | nil =>
    simp only [List.nil_append, List.cons.injEq] at h
    exact ⟨rfl, h.1, h.2⟩
  | cons z zs =>
    simp only [List.cons_append, List.cons.injEq] at h
    obtain ⟨_, habs⟩ := h
    exact absurd habs (by simp)

theorem edges_split (l : List DEdge) (i : Nat) (e : DEdge) (h : l[i]? = some e) :
    l = l.take i ++ e :: l.drop (i + 1) := by
  obtain ⟨hi, hx⟩ := List.getElem?_eq_some.mp h
  conv_lhs => rw [← List.take_append_drop i l]
  rw [← List.getElem_cons_drop l i hi, hx]

theorem inc_modified (g : DGraph) (i : Nat) (e : DEdge) (lab2 : Str) (n2 q : Nat)
    (he : g.edges[i]? = some e) :
    (∀ v, v ≠ e.tgt →
        inc ⟨n2, g.edges.eraseIdx i ++ [⟨q, e.tgt, lab2⟩]⟩ v = inc g v)
      ∧ (inc g e.tgt = [e] →
          inc ⟨n2, g.edges.eraseIdx i ++ [⟨q, e.tgt, lab2⟩]⟩ e.tgt
            = [⟨q, e.tgt, lab2⟩]) := by
  have hsplit := edges_split g.edges i e he
  have hlen : i < g.edges.length := (List.getElem?_eq_some.mp he).1
  have herase : g.edges.eraseIdx i = g.edges.take i ++ g.edges.drop (i + 1) :=
    List.eraseIdx_eq_take_drop_succ g.edges i
  constructor
  · intro v hv
    show List.filter _ _ = List.filter _ _
    conv_rhs => rw [hsplit]
    rw [herase]
    simp only [List.filter_append, List.filter_cons]
    have hne : ¬ ((e.tgt == v) = true) := by
      simp only [beq_iff_eq]
      exact fun hc => hv hc.symm
    rw [if_neg hne, if_neg hne]
    simp
  · intro hinc
    show List.filter _ _ = _
    unfold inc at hinc
    conv_lhs => rw [herase]
    rw [hsplit] at hinc
    simp only [List.filter_append, List.filter_cons] at hinc ⊢
    rw [if_pos (by simp)] at hinc
    rw [if_pos (by simp)]
    obtain ⟨h1, _, h2⟩ := append_eq_singleton_mid _ _ _ _ hinc
    rw [h1, h2]
    simp

theorem lift_tree (g : DGraph) (d : Nat → Nat) (lifted : List Nat) (i : Nat) (e : DEdge)
    (h : IsTreeDepth g d) (he : g.edges[i]? = some e) (hsrc0 : e.src ≠ 0) :
    ∃ pe g' lifted',
      parentEdge? g e.src = some pe
      ∧ lift g lifted i = some (g', lifted')
      ∧ IsTreeDepth g' (liftDepth g d e.tgt)
      ∧ liftDepth g d e.tgt e.tgt + 1 = d e.tgt
      ∧ (∃ pe', parentEdge? g' e.tgt = some pe' ∧ pe'.src = pe.src)
      ∧ sumDepth g' (liftDepth g d e.tgt) < sumDepth g d := by
  have heEdges : e ∈ g.edges := getElem?_mem_edges he
  obtain ⟨hc0, hcN, hincc, hdc⟩ := tree_tgt h heEdges
  have hpN : e.src < g.nodeCount := (h.1 e heEdges).1
  have hp0 : 0 < e.src := Nat.pos_of_ne_zero hsrc0
  obtain ⟨pe, hpe, hpeE, hpeT, hdp, hqN⟩ := tree_parent h hpN hp0
  have hincp : inc g e.src = [pe] := (parentEdge?_some_iff _ _ _).mp hpe
  have hfi : firstIncoming g e.src = some pe := firstIncoming_of_unique _ _ _ hincp
  have hdcge1 : 1 ≤ d e.tgt := by omega
  have hq_chain : e.tgt ∉ ancChain g (d pe.src) pe.src := by
    intro hmm
    have := ancChain_depth_le h (d pe.src) pe.src hqN e.tgt hmm
    omega
  obtain ⟨g', lifted', lab2, hlift, hg'⟩ :
      ∃ g' lifted' lab2, lift g lifted i = some (g', lifted')
        ∧ g' = ⟨g.nodeCount, g.edges.eraseIdx i ++ [⟨pe.src, e.tgt, lab2⟩]⟩ := by
    simp only [lift, he, hfi]
    by_cases hmem : e.tgt ∈ lifted
    · exact ⟨_, _, e.lab, by rw [if_pos hmem], rfl⟩
    · exact ⟨_, _, e.lab ++ '|' :: pe.lab, by rw [if_neg hmem], rfl⟩
  subst hg'
  obtain ⟨hinc_other, hinc_new⟩ :=
    inc_modified g i e lab2 g.nodeCount pe.src he
  have hinc_c := hinc_new hincc
  have hd'_c : liftDepth g d e.tgt e.tgt = d e.tgt - 1 := by
    unfold liftDepth
    rw [if_pos (self_mem_ancChain g (d e.tgt) e.tgt)]
  have hd'_q : liftDepth g d e.tgt pe.src = d pe.src := by
    unfold liftDepth
    rw [if_neg hq_chain]
  have htree' : IsTreeDepth
      ⟨g.nodeCount, g.edges.eraseIdx i ++ [⟨pe.src, e.tgt, lab2⟩]⟩
      (liftDepth g d e.tgt) := by
    refine ⟨?_, ?_, ?_, ?_⟩
    · intro e2 he2
      rcases List.mem_append.mp he2 with h1 | h2
      · exact h.1 e2 (List.mem_of_mem_eraseIdx h1)
      · rcases List.mem_singleton.mp h2 with rfl
        exact ⟨hqN, hcN⟩
    · show inc _ 0 = []
      rw [hinc_other 0 (fun hcc => hc0 hcc.symm)]
      exact h.2.1
    · unfold liftDepth
      rw [h.2.2.1]
      have : ancChain g 0 0 = [0] := rfl
      rw [this, if_neg (by simpa using hc0)]
    · intro v hvN hv0
      by_cases hvc : v = e.tgt
      · subst hvc
        have hpe2 : parentEdge?
            ⟨g.nodeCount, g.edges.eraseIdx i ++ [⟨pe.src, e.tgt, lab2⟩]⟩ e.tgt
            = some ⟨pe.src, e.tgt, lab2⟩ :=
          (parentEdge?_some_iff _ _ _).mpr hinc_c
        refine ⟨by rw [hpe2]; rfl, ?_⟩
        rw [parentOf_eq _ e.tgt _ hpe2]
        show liftDepth g d e.tgt e.tgt = liftDepth g d e.tgt pe.src + 1
        rw [hd'_c, hd'_q]
        omega
      · have hpcongr := parentEdge?_congr g
          ⟨g.nodeCount, g.edges.eraseIdx i ++ [⟨pe.src, e.tgt, lab2⟩]⟩ v
          (hinc_other v hvc)
        obtain ⟨pev, hpev, hpevE, hpevT, hdv, hpvN⟩ := tree_parent h hvN hv0
        refine ⟨by rw [hpcongr, hpev]; rfl, ?_⟩
        rw [parentOf_eq _ v pev (by rw [hpcongr, hpev])]
        have hchain := ancChain_cons h hvN hv0 hpev
        have hdc_le : e.tgt ∈ ancChain g (d pev.src) pev.src → 1 ≤ d pev.src := by
          intro hmm
          have := ancChain_depth_le h (d pev.src) pev.src hpvN e.tgt hmm
          omega
        unfold liftDepth
        rw [hchain]
        by_cases hcc : e.tgt ∈ ancChain g (d pev.src) pev.src
        · rw [if_pos (List.mem_cons_of_mem _ hcc), if_pos hcc]
          have := hdc_le hcc
          omega
        · rw [if_neg ?_, if_neg hcc]
          · omega
          · intro hmm
            rcases List.mem_cons.mp hmm with hc1 | hc2
            · exact hvc hc1.symm
            · exact hcc hc2
  refine ⟨pe, _, lifted', hpe, hlift, htree', by rw [hd'_c]; omega,
    ⟨⟨pe.src, e.tgt, lab2⟩, (parentEdge?_some_iff _ _ _).mpr hinc_c, rfl⟩, ?_⟩
  unfold sumDepth
  show (∑ v ∈ Finset.range g.nodeCount, liftDepth g d e.tgt v) < _
  apply Finset.sum_lt_sum
  · intro v _
    unfold liftDepth
    by_cases hcc : e.tgt ∈ ancChain g (d v) v
    · rw [if_pos hcc]
      omega
    · rw [if_neg hcc]
  · refine ⟨e.tgt, Finset.mem_range.mpr hcN, ?_⟩
    rw [hd'_c]
    omega

theorem sumDepth_pos_of_np {g : DGraph} {d : Nat → Nat} (h : IsTreeDepth g d)
    {idx : Nat} {rest : List Nat} (hnp : nonProjectiveEdges g = idx :: rest) :
    1 ≤ sumDepth g d := by
  have hmem : idx ∈ nonProjectiveEdges g := by rw [hnp]; exact List.mem_cons_self _ _
  obtain ⟨e, he, _⟩ := (npe_mem g h.1 idx).mp hmem
  obtain ⟨_, hcN, _, hdc⟩ := tree_tgt h (getElem?_mem_edges he)
  have hle : d e.tgt ≤ sumDepth g d :=
    Finset.single_le_sum (fun v _ => Nat.zero_le (d v)) (Finset.mem_range.mpr hcN)
  omega

theorem projLoop_total (fuel : Nat) :
    ∀ (g : DGraph) (d : Nat → Nat) (lifted : List Nat),
      IsTreeDepth g d → sumDepth g d ≤ fuel →
      (projLoop fuel g lifted).isSome = true := by
  induction fuel with
  | zero =>
    intro g d lifted h hfuel
    cases hnp : nonProjectiveEdges g with
    | nil => simp [projLoop, hnp]
    | cons idx rest =>
      have := sumDepth_pos_of_np h hnp
      omega
  | succ fuel ih =>
    intro g d lifted h hfuel
    cases hnp : nonProjectiveEdges g with
    | nil => simp [projLoop, hnp]
    | cons idx rest =>
      have hmem : idx ∈ nonProjectiveEdges g := by rw [hnp]; exact List.mem_cons_self _ _
      obtain ⟨e, he, _⟩ := (npe_mem g h.1 idx).mp hmem
      have hsrc0 := np_src_ne_zero h hmem he
      obtain ⟨pe, g', lifted', _, hlift, htree', _, _, hsum⟩ :=
        lift_tree g d lifted idx e h he hsrc0
      simp only [projLoop, hnp, hlift, Option.bind_some]
      exact ih g' (liftDepth g d e.tgt) lifted' htree' (by omega)

/-- C4: when the head relation of the sentence's graph is a tree rooted
at node 0 (certified by a depth function `d`), the projectivization
fixed-point loop terminates — `sumDepth g d` iterations suffice — and
each lift of an edge `p → c` (with `p` not the root, as for every
non-projective edge) strictly decreases the depth of the lifted
dependent `c` by one, reattaching it to its grandparent; depths are
natural numbers, hence bounded below by 0. -/
theorem c4_projectivize_terminates (sent : Sentence) (g : DGraph) (d : Nat → Nat)
    (hg : sentenceToGraph sent = .ok g) (h : IsTreeDepth g d) :
    (∃ out, projectivize (sumDepth g d) sent = some out)
      ∧ (∀ (lifted : List Nat) (i : Nat) (e : DEdge),
          g.edges[i]? = some e → e.src ≠ 0 →
          ∃ pe g' lifted' d', parentEdge? g e.src = some pe
            ∧ lift g lifted i = some (g', lifted')
            ∧ IsTreeDepth g' d'
            ∧ d' e.tgt + 1 = d e.tgt
            ∧ (∃ pe', parentEdge? g' e.tgt = some pe' ∧ pe'.src = pe.src)) := by
  constructor
  · unfold projectivize
    simp only [hg]
    have := projLoop_total (sumDepth g d) g d [] h (le_refl _)
    obtain ⟨r, hr⟩ := Option.isSome_iff_exists.mp this
    rw [hr]
    exact ⟨_, rfl⟩
  · intro lifted i e he hsrc0
    obtain ⟨pe, g', lifted', hpe, hlift, htree', hdec, hpar, _⟩ :=
      lift_tree g d lifted i e h he hsrc0
    exact ⟨pe, g', lifted', liftDepth g d e.tgt, hpe, hlift, htree', hdec, hpar⟩

/-! ### Claim C1: where the reattachment search actually looks -/

/-- Helper to build a token with form, head and head relation. -/
def mkTok (f : Str) (h : Nat) (r : Str) : Token :=
  { form := some f, head := some h, head_rel := some r }

/-- Failing input for C1: token 2 is encoded (`C|A`, preferred head
label `A`) and attached to token 1; the only token with incoming label
`A` is token 3, which is NOT dominated by token 2's current parent 1. -/
def c1Sentence : Sentence :=
  [mkTok "w1".data 0 "B".data,
   mkTok "w2".data 1 "C|A".data,
   mkTok "w3".data 0 "A".data]

/-- What the code produces on `c1Sentence`: token 2 reattached under
token 3. -/
def c1Result : Sentence :=
  [mkTok "w1".data 0 "B".data,
   mkTok "w2".data 3 "C".data,
   mkTok "w3".data 0 "A".data]

/-- The graph of `c1Sentence` after `prepare_deproj` stripped the
encoded label. -/
def c1Prepared : DGraph :=
  ⟨4, [⟨0, 1, "B".data⟩, ⟨1, 2, "C".data⟩, ⟨0, 3, "A".data⟩]⟩

/-- C1 counterexample record: deprojectivizing `c1Sentence` reattaches
the encoded token 2 to token 3 — even though token 3 is not reachable
from (dominated by) token 2's current parent, token 1, in the prepared
graph.  The claim (and the comment inside
`search_attachment_point`) would instead require the new head to be
dominated by the current parent, under which no candidate exists and
token 2 would stay attached to token 1. -/
theorem c1_attachment_escapes_parent_subtree :
    deprojectivize c1Sentence = some (Except.ok c1Result)
      ∧ sentenceToGraph c1Sentence
          = Except.ok ⟨4, [⟨0, 1, "B".data⟩, ⟨1, 2, "C|A".data⟩, ⟨0, 3, "A".data⟩]⟩
      ∧ prepareDeproj ⟨4, [⟨0, 1, "B".data⟩, ⟨1, 2, "C|A".data⟩, ⟨0, 3, "A".data⟩]⟩
          = (c1Prepared, [(2, "A".data)])
      ∧ c1Result[1]?.map Token.head = some (some 3)
      ∧ ¬ Reach c1Prepared 1 3 := by
  refine ⟨by decide, by decide, by decide, by decide, ?_⟩
  intro hr
  have h3 : (3 : Nat) ∈ bfsList c1Prepared 1 :=
    (bfsList_mem_iff c1Prepared (by decide) 1 (by decide) 3).mpr hr
  revert h3
  decide

/-! ### Witnesses -/

/-- Witness graph for C2: edge 1 → 2 is lifted; node 1's parent edge is
0 → 1. -/
def c2wGraph : DGraph := ⟨3, [⟨0, 1, "A".data⟩, ⟨1, 2, "B".data⟩]⟩

theorem c2_lift_witness :
    c2wGraph.edges[1]? = some ⟨1, 2, "B".data⟩
      ∧ inc c2wGraph 1 = [⟨0, 1, "A".data⟩]
      ∧ (∃ g' lifted', lift c2wGraph [] 1 = some (g', lifted')
          ∧ g'.nodeCount = c2wGraph.nodeCount
          ∧ ((2 : Nat) ∉ ([] : List Nat) →
              g'.edges = c2wGraph.edges.eraseIdx 1
                  ++ [⟨0, 2, "B".data ++ '|' :: "A".data⟩]
                ∧ lifted' = 2 :: [])
          ∧ ((2 : Nat) ∈ ([] : List Nat) →
              g'.edges = c2wGraph.edges.eraseIdx 1 ++ [⟨0, 2, "B".data⟩]
                ∧ lifted' = [])
          ∧ (2 : Nat) ∈ lifted') :=
  ⟨by decide, by decide,
   c2_lift c2wGraph [] 1 ⟨1, 2, "B".data⟩ ⟨0, 1, "A".data⟩ (by decide) (by decide)⟩

/-- Witness graph for C3: a small well-formed graph. -/
def c3wGraph : DGraph := ⟨3, [⟨0, 1, "a".data⟩, ⟨1, 2, "b".data⟩]⟩

theorem c3_non_projective_edges_witness :
    c3wGraph.WF
      ∧ ((∀ idx, idx ∈ nonProjectiveEdges c3wGraph ↔
            ∃ e, c3wGraph.edges[idx]? = some e ∧
              ∃ j, min e.src e.tgt < j ∧ j < max e.src e.tgt
                ∧ ¬ Reach c3wGraph e.src j)
        ∧ (nonProjectiveEdges c3wGraph).Pairwise
            (fun a b => spanOf c3wGraph a ≤ spanOf c3wGraph b)
        ∧ (∀ s, (nonProjectiveEdges c3wGraph).filter (fun i => spanOf c3wGraph i == s)
              = (npEnum c3wGraph).filter (fun i => spanOf c3wGraph i == s))) :=
  ⟨by decide, c3_non_projective_edges c3wGraph (by decide)⟩

/-- Witness sentence for C4: token 1 hangs non-projectively from token
3 (tree: 0 → 2 → 3 → 1). -/
def c4wSent : Sentence :=
  [mkTok "a".data 3 "A".data, mkTok "b".data 0 "ROOT".data, mkTok "c".data 2 "B".data]

/-- Its dependency graph. -/
def c4wGraph : DGraph :=
  ⟨4, [⟨3, 1, "A".data⟩, ⟨0, 2, "ROOT".data⟩, ⟨2, 3, "B".data⟩]⟩

/-- A depth function certifying the tree. -/
def c4wDepth : Nat → Nat := fun v => [0, 3, 1, 2].getD v 0

theorem c4_projectivize_terminates_witness :
    sentenceToGraph c4wSent = .ok c4wGraph
      ∧ IsTreeDepth c4wGraph c4wDepth
      ∧ ((∃ out, projectivize (sumDepth c4wGraph c4wDepth) c4wSent = some out)
        ∧ (∀ (lifted : List Nat) (i : Nat) (e : DEdge),
            c4wGraph.edges[i]? = some e → e.src ≠ 0 →
            ∃ pe g' lifted' d', parentEdge? c4wGraph e.src = some pe
              ∧ lift c4wGraph lifted i = some (g', lifted')
              ∧ IsTreeDepth g' d'
              ∧ d' e.tgt + 1 = c4wDepth e.tgt
              ∧ (∃ pe', parentEdge? g' e.tgt = some pe' ∧ pe'.src = pe.src))) :=
  ⟨by decide, by decide,
   c4_projectivize_terminates c4wSent c4wGraph c4wDepth (by decide) (by decide)⟩

/-- Witness sentences for C7: one sentence with a head but no head
label (rejected), one accepted sentence. -/
def c7wBad : Sentence := [{ head := some 0 }]

def c7wGood : Sentence := [mkTok "x".data 0 "ROOT".data]

theorem c7_sentence_to_graph_witness :
    (∃ err, sentenceToGraph c7wBad = .error err)
      ∧ (∀ g, sentenceToGraph c7wGood = .ok g →
          (∀ j, g.edges.filter (fun e => e.tgt == j + 1)
              = (match c7wGood[j]? with
                 | some t =>
                   (match t.head, t.head_rel with
                    | some hh, some rel => [⟨hh, j + 1, rel⟩]
                    | _, _ => [])
                 | none => []))
            ∧ g.edges.filter (fun e => e.tgt == 0) = []) :=
  ⟨(c7_sentence_to_graph c7wBad).1.mpr ⟨{ head := some 0 }, by decide, by decide, by decide⟩,
   (c7_sentence_to_graph c7wGood).2⟩

/-- Witness sentence for C8: an already-projective two-token sentence. -/
def c8wSent : Sentence := [mkTok "x".data 0 "ROOT".data, mkTok "y".data 1 "X".data]

/-- Its dependency graph. -/
def c8wGraph : DGraph := ⟨3, [⟨0, 1, "ROOT".data⟩, ⟨1, 2, "X".data⟩]⟩

theorem c8_projectivize_identity_witness :
    sentenceToGraph c8wSent = .ok c8wGraph
      ∧ nonProjectiveEdges c8wGraph = []
      ∧ projectivize 5 c8wSent = some (.ok c8wSent) :=
  ⟨by decide, by decide,
   c8_projectivize_identity 5 c8wSent c8wGraph (by decide) (by decide)⟩

/-- Witness sentences for C10: a non-projective sentence for
projectivization and an encoded sentence for deprojectivization. -/
def c10wOutP : Sentence :=
  [mkTok "a".data 2 ("A".data ++ '|' :: "B".data), mkTok "b".data 0 "ROOT".data,
   mkTok "c".data 2 "B".data]

def c10wSentD : Sentence := [mkTok "x".data 0 "R".data, mkTok "y".data 1 "X|R".data]

def c10wOutD : Sentence := [mkTok "x".data 0 "R".data, mkTok "y".data 1 "X".data]

theorem c10_frame_preservation_witness :
    projectivize 10 c4wSent = some (.ok c10wOutP)
      ∧ framesMatch c4wSent c10wOutP
      ∧ deprojectivize c10wSentD = some (.ok c10wOutD)
      ∧ framesMatch c10wSentD c10wOutD :=
  ⟨by decide,
   (c10_frame_preservation c4wSent).1 10 c10wOutP (by decide),
   by decide,
   (c10_frame_preservation c10wSentD).2 c10wOutD (by decide)⟩
